import Mathlib

/-!
# String service (`main.go`): a shallow embedding and its contract

A Go `string` is a finite sequence of bytes, not necessarily valid UTF-8.
`for _, c := range s` decodes it rune by rune (an ill-formed byte yields
`U+FFFD` and advances by one byte) and `string(c)` encodes a rune as UTF-8.
Both are embedded here byte for byte, so that the four operations of
`stringService` are functions on byte sequences.
-/

namespace StringSvc

/-! ## Go strings, runes and UTF-8 -/

/-- A Go `byte` (`uint8`). -/
abbrev Byte := Fin 256

/-- A Go `string`: an immutable sequence of bytes. -/
abbrev GoString := List Byte

/-! A Go `rune` read by a range loop is never negative: runes are natural
numbers here. -/

/-- The conversion `byte(x)`: truncation to eight bits. -/
def byte (n : Nat) : Byte := ⟨n % 256, Nat.mod_lt n (by decide)⟩

/-- The constant `utf8.RuneError`, `U+FFFD`. -/
def RuneError : Nat := 0xFFFD

/-- The constant `utf8.MaxRune`, `U+10FFFF`. -/
def MaxRune : Nat := 0x10FFFF

/-- The information of `utf8.first` and `utf8.acceptRanges` for a lead byte
`≥ 0x80`: the length of the sequence and the accepted range of the second
byte; `none` for a byte that cannot start a sequence. -/
def leadInfo (b : Nat) : Option (Nat × Nat × Nat) :=
  if b < 0xC2 then none
  else if b ≤ 0xDF then some (2, 0x80, 0xBF)
  else if b = 0xE0 then some (3, 0xA0, 0xBF)
  else if b ≤ 0xEC then some (3, 0x80, 0xBF)
  else if b = 0xED then some (3, 0x80, 0x9F)
  else if b ≤ 0xEF then some (3, 0x80, 0xBF)
  else if b = 0xF0 then some (4, 0x90, 0xBF)
  else if b ≤ 0xF3 then some (4, 0x80, 0xBF)
  else if b = 0xF4 then some (4, 0x80, 0x8F)
  else none

/-- The function `utf8.DecodeRuneInString` (the runtime's `decoderune`): the
first rune of `s` and its width in bytes; `(RuneError, 1)` for an ill-formed
sequence and `(RuneError, 0)` for the empty string. Masks and shifts are
written with `%` and `*`. -/
def decodeRune (s : GoString) : Nat × Nat :=
  match s with
  | [] => (RuneError, 0)
  | s0 :: t =>
    if s0.val < 0x80 then (s0.val, 1)
    else
      match leadInfo s0.val with
      | none => (RuneError, 1)
      | some (sz, lo, hi) =>
        if s.length < sz then (RuneError, 1)
        else
          match t with
          | [] => (RuneError, 1)
          | s1 :: t1 =>
            if s1.val < lo ∨ hi < s1.val then (RuneError, 1)
            else if sz ≤ 2 then (s0.val % 32 * 64 + s1.val % 64, 2)
            else
              match t1 with
              | [] => (RuneError, 1)
              | s2 :: t2 =>
                if s2.val < 0x80 ∨ 0xBF < s2.val then (RuneError, 1)
                else if sz ≤ 3 then
                  (s0.val % 16 * 4096 + s1.val % 64 * 64 + s2.val % 64, 3)
                else
                  match t2 with
                  | [] => (RuneError, 1)
                  | s3 :: _ =>
                    if s3.val < 0x80 ∨ 0xBF < s3.val then (RuneError, 1)
                    else
                      (s0.val % 8 * 262144 + s1.val % 64 * 4096
                        + s2.val % 64 * 64 + s3.val % 64, 4)

/-- The runes of `for _, c := range s`; the first argument is the number of
bytes the loop index still has to pass before the next iteration: the index
advances by the width of each decoded rune. -/
def rangeFrom : Nat → GoString → List Nat
  | _, [] => []
  | 0, b :: rest => (decodeRune (b :: rest)).1 :: rangeFrom ((decodeRune (b :: rest)).2 - 1) rest
  | k + 1, _ :: rest => rangeFrom k rest

/-- The sequence of values `c` of `for _, c := range s`. -/
def rangeRunes (s : GoString) : List Nat := rangeFrom 0 s

/-- The iterations of `for _, c := range s`, each as the rune `c` with the
bytes of `s` it was read from; the first argument is the number of bytes the
index still has to pass before the next iteration. -/
def stepsFrom : Nat → GoString → List (Nat × GoString)
  | _, [] => []
  | 0, b :: rest =>
    ((decodeRune (b :: rest)).1, (b :: rest).take (decodeRune (b :: rest)).2)
      :: stepsFrom ((decodeRune (b :: rest)).2 - 1) rest
  | k + 1, _ :: rest => stepsFrom k rest

/-- The iterations of the range loop over `s`. -/
def rangeSteps (s : GoString) : List (Nat × GoString) := stepsFrom 0 s

/-- The conversion `string(c)` of a rune (`utf8.EncodeRune`): the UTF-8
encoding of `c`, and that of `U+FFFD` for a surrogate or a value above
`MaxRune`. -/
def stringOfRune (c : Nat) : GoString :=
  if c ≤ 0x7F then [byte c]
  else if c ≤ 0x7FF then [byte (0xC0 + c / 64), byte (0x80 + c % 64)]
  else if MaxRune < c ∨ (0xD800 ≤ c ∧ c ≤ 0xDFFF) then [0xEF, 0xBF, 0xBD]
  else if c ≤ 0xFFFF then
    [byte (0xE0 + c / 4096), byte (0x80 + c / 64 % 64), byte (0x80 + c % 64)]
  else
    [byte (0xF0 + c / 262144), byte (0x80 + c / 4096 % 64),
      byte (0x80 + c / 64 % 64), byte (0x80 + c % 64)]

/-- A Unicode scalar value: a code point that is not a surrogate. -/
def ValidRune (c : Nat) : Prop := c ≤ 0x10FFFF ∧ ¬ (0xD800 ≤ c ∧ c ≤ 0xDFFF)

instance (c : Nat) : Decidable (ValidRune c) := by
  unfold ValidRune; infer_instance

/-- The UTF-8 encoding of a sequence of code points. -/
def encodeRunes (cs : List Nat) : GoString := cs.flatMap stringOfRune

/-- The predicate `utf8.ValidString`: every decoding step of `s` reads a
well-formed sequence (an ill-formed one decodes as `(RuneError, 1)`, while a
well-formed `U+FFFD` has width 3). -/
def validFrom : Nat → GoString → Bool
  | _, [] => true
  | 0, b :: rest =>
    !(decide (decodeRune (b :: rest) = (RuneError, 1)))
      && validFrom ((decodeRune (b :: rest)).2 - 1) rest
  | k + 1, _ :: rest => validFrom k rest

/-- A string is valid UTF-8. -/
def ValidString (s : GoString) : Prop := validFrom 0 s = true

instance (s : GoString) : Decidable (ValidString s) := by
  unfold ValidString; infer_instance

/-- The bytes of an ASCII literal. -/
def lit (s : String) : GoString := s.toList.map (fun c => byte c.toNat)

/-! ## The standard library functions behind `strings.ToUpper`

The functions `strings.ToUpper`, `strings.Map` and `unicode.ToUpper` take
the upper-case image of a rune above ASCII from the case table of package
`unicode`. The functions are embedded over any such lookup `caseUpper`; the
table itself follows, with the lookup `toUpperCase` in it. -/

/-- The part of a `unicode.CaseRange` that upper-casing reads: the range
`Lo` to `Hi` and `Delta[UpperCase]`, the number to add to a rune of the range
(or `UpperLower`). -/
structure CaseRange where
  Lo : Nat
  Hi : Nat
  Delta : Int

/-- The constant `unicode.UpperLower`, `MaxRune + 1`: the delta of a range
of alternating upper-case and lower-case letters, the upper-case ones at the
even offsets. -/
def UpperLower : Int := 0x10FFFF + 1

/-- The loop `for lo < hi` of the binary search in `unicode.to`, for
`_case = UpperCase`, with one unit of fuel for each iteration: the range in
the middle decides the image of `r` when it holds `r` (`Lo` plus the offset
of `r` with its low bit cleared in an `UpperLower` range, `r + Delta` in any
other), and the search goes on in the lower or the upper half otherwise; a
rune found in no range is its own image. -/
def unicodeToLoop (caseRange : List CaseRange) (r : Nat) : Nat → Nat → Nat → Int
  | 0, _, _ => (r : Int)
  | fuel + 1, lo, hi =>
    if lo < hi then
      match caseRange[(lo + hi) / 2]? with
      | none => (r : Int)
      | some cr =>
        if cr.Lo ≤ r ∧ r ≤ cr.Hi then
          if (MaxRune : Int) < cr.Delta then ((cr.Lo + (r - cr.Lo) / 2 * 2 : Nat) : Int)
          else (r : Int) + cr.Delta
        else if r < cr.Lo then unicodeToLoop caseRange r fuel lo ((lo + hi) / 2)
        else unicodeToLoop caseRange r fuel ((lo + hi) / 2 + 1) hi
    else (r : Int)

/-- The function `unicode.to` for `_case = UpperCase`: the search runs from
`lo = 0` to `hi = len(caseRange)`, an interval that shrinks with every
iteration, so that `len(caseRange)` units of fuel are enough. -/
def unicodeTo (caseRange : List CaseRange) (r : Nat) : Int :=
  unicodeToLoop caseRange r caseRange.length 0 caseRange.length

/-- The image of `r` by the first range of a table that holds it, and `r`
itself when none does: what `unicode.to` finds in a sorted table. -/
def caseTo : List CaseRange → Nat → Int
  | [], r => (r : Int)
  | cr :: rest, r =>
    if cr.Lo ≤ r ∧ r ≤ cr.Hi then
      if (MaxRune : Int) < cr.Delta then ((cr.Lo + (r - cr.Lo) / 2 * 2 : Nat) : Int)
      else (r : Int) + cr.Delta
    else caseTo rest r

/-- The ranges of the table `unicode.CaseRanges` above ASCII in which
upper-casing changes a rune (the others have `Delta[UpperCase] = 0` and leave
every rune as it is): the simple upper-case mappings of the Unicode Character
Database, on which its versions 14.0.0 and 15.0.0 agree (package `unicode`
has 15.0.0 since Go 1.21). -/
def CaseRanges : List CaseRange :=
  [CaseRange.mk 0x00B5 0x00B5 (743), CaseRange.mk 0x00E0 0x00F6 (-32),
   CaseRange.mk 0x00F8 0x00FE (-32), CaseRange.mk 0x00FF 0x00FF (121),
   CaseRange.mk 0x0100 0x012F UpperLower, CaseRange.mk 0x0131 0x0131 (-232),
   CaseRange.mk 0x0132 0x0137 UpperLower, CaseRange.mk 0x0139 0x0148 UpperLower,
   CaseRange.mk 0x014A 0x0177 UpperLower, CaseRange.mk 0x0179 0x017E UpperLower,
   CaseRange.mk 0x017F 0x017F (-300), CaseRange.mk 0x0180 0x0180 (195),
   CaseRange.mk 0x0182 0x0185 UpperLower, CaseRange.mk 0x0187 0x0188 UpperLower,
   CaseRange.mk 0x018B 0x018C UpperLower, CaseRange.mk 0x0191 0x0192 UpperLower,
   CaseRange.mk 0x0195 0x0195 (97), CaseRange.mk 0x0198 0x0199 UpperLower,
   CaseRange.mk 0x019A 0x019A (163), CaseRange.mk 0x019E 0x019E (130),
   CaseRange.mk 0x01A0 0x01A5 UpperLower, CaseRange.mk 0x01A7 0x01A8 UpperLower,
   CaseRange.mk 0x01AC 0x01AD UpperLower, CaseRange.mk 0x01AF 0x01B0 UpperLower,
   CaseRange.mk 0x01B3 0x01B6 UpperLower, CaseRange.mk 0x01B8 0x01B9 UpperLower,
   CaseRange.mk 0x01BC 0x01BD UpperLower, CaseRange.mk 0x01BF 0x01BF (56),
   CaseRange.mk 0x01C5 0x01C5 (-1), CaseRange.mk 0x01C6 0x01C6 (-2),
   CaseRange.mk 0x01C8 0x01C8 (-1), CaseRange.mk 0x01C9 0x01C9 (-2),
   CaseRange.mk 0x01CB 0x01CB (-1), CaseRange.mk 0x01CC 0x01CC (-2),
   CaseRange.mk 0x01CD 0x01DC UpperLower, CaseRange.mk 0x01DD 0x01DD (-79),
   CaseRange.mk 0x01DE 0x01EF UpperLower, CaseRange.mk 0x01F2 0x01F2 (-1),
   CaseRange.mk 0x01F3 0x01F3 (-2), CaseRange.mk 0x01F4 0x01F5 UpperLower,
   CaseRange.mk 0x01F8 0x021F UpperLower, CaseRange.mk 0x0222 0x0233 UpperLower,
   CaseRange.mk 0x023B 0x023C UpperLower, CaseRange.mk 0x023F 0x0240 (10815),
   CaseRange.mk 0x0241 0x0242 UpperLower, CaseRange.mk 0x0246 0x024F UpperLower,
   CaseRange.mk 0x0250 0x0250 (10783), CaseRange.mk 0x0251 0x0251 (10780),
   CaseRange.mk 0x0252 0x0252 (10782), CaseRange.mk 0x0253 0x0253 (-210),
   CaseRange.mk 0x0254 0x0254 (-206), CaseRange.mk 0x0256 0x0257 (-205),
   CaseRange.mk 0x0259 0x0259 (-202), CaseRange.mk 0x025B 0x025B (-203),
   CaseRange.mk 0x025C 0x025C (42319), CaseRange.mk 0x0260 0x0260 (-205),
   CaseRange.mk 0x0261 0x0261 (42315), CaseRange.mk 0x0263 0x0263 (-207),
   CaseRange.mk 0x0265 0x0265 (42280), CaseRange.mk 0x0266 0x0266 (42308),
   CaseRange.mk 0x0268 0x0268 (-209), CaseRange.mk 0x0269 0x0269 (-211),
   CaseRange.mk 0x026A 0x026A (42308), CaseRange.mk 0x026B 0x026B (10743),
   CaseRange.mk 0x026C 0x026C (42305), CaseRange.mk 0x026F 0x026F (-211),
   CaseRange.mk 0x0271 0x0271 (10749), CaseRange.mk 0x0272 0x0272 (-213),
   CaseRange.mk 0x0275 0x0275 (-214), CaseRange.mk 0x027D 0x027D (10727),
   CaseRange.mk 0x0280 0x0280 (-218), CaseRange.mk 0x0282 0x0282 (42307),
   CaseRange.mk 0x0283 0x0283 (-218), CaseRange.mk 0x0287 0x0287 (42282),
   CaseRange.mk 0x0288 0x0288 (-218), CaseRange.mk 0x0289 0x0289 (-69),
   CaseRange.mk 0x028A 0x028B (-217), CaseRange.mk 0x028C 0x028C (-71),
   CaseRange.mk 0x0292 0x0292 (-219), CaseRange.mk 0x029D 0x029D (42261),
   CaseRange.mk 0x029E 0x029E (42258), CaseRange.mk 0x0345 0x0345 (84),
   CaseRange.mk 0x0370 0x0373 UpperLower, CaseRange.mk 0x0376 0x0377 UpperLower,
   CaseRange.mk 0x037B 0x037D (130), CaseRange.mk 0x03AC 0x03AC (-38),
   CaseRange.mk 0x03AD 0x03AF (-37), CaseRange.mk 0x03B1 0x03C1 (-32),
   CaseRange.mk 0x03C2 0x03C2 (-31), CaseRange.mk 0x03C3 0x03CB (-32),
   CaseRange.mk 0x03CC 0x03CC (-64), CaseRange.mk 0x03CD 0x03CE (-63),
   CaseRange.mk 0x03D0 0x03D0 (-62), CaseRange.mk 0x03D1 0x03D1 (-57),
   CaseRange.mk 0x03D5 0x03D5 (-47), CaseRange.mk 0x03D6 0x03D6 (-54),
   CaseRange.mk 0x03D7 0x03D7 (-8), CaseRange.mk 0x03D8 0x03EF UpperLower,
   CaseRange.mk 0x03F0 0x03F0 (-86), CaseRange.mk 0x03F1 0x03F1 (-80),
   CaseRange.mk 0x03F2 0x03F2 (7), CaseRange.mk 0x03F3 0x03F3 (-116),
   CaseRange.mk 0x03F5 0x03F5 (-96), CaseRange.mk 0x03F7 0x03F8 UpperLower,
   CaseRange.mk 0x03FA 0x03FB UpperLower, CaseRange.mk 0x0430 0x044F (-32),
   CaseRange.mk 0x0450 0x045F (-80), CaseRange.mk 0x0460 0x0481 UpperLower,
   CaseRange.mk 0x048A 0x04BF UpperLower, CaseRange.mk 0x04C1 0x04CE UpperLower,
   CaseRange.mk 0x04CF 0x04CF (-15), CaseRange.mk 0x04D0 0x052F UpperLower,
   CaseRange.mk 0x0561 0x0586 (-48), CaseRange.mk 0x10D0 0x10FA (3008),
   CaseRange.mk 0x10FD 0x10FF (3008), CaseRange.mk 0x13F8 0x13FD (-8),
   CaseRange.mk 0x1C80 0x1C80 (-6254), CaseRange.mk 0x1C81 0x1C81 (-6253),
   CaseRange.mk 0x1C82 0x1C82 (-6244), CaseRange.mk 0x1C83 0x1C84 (-6242),
   CaseRange.mk 0x1C85 0x1C85 (-6243), CaseRange.mk 0x1C86 0x1C86 (-6236),
   CaseRange.mk 0x1C87 0x1C87 (-6181), CaseRange.mk 0x1C88 0x1C88 (35266),
   CaseRange.mk 0x1D79 0x1D79 (35332), CaseRange.mk 0x1D7D 0x1D7D (3814),
   CaseRange.mk 0x1D8E 0x1D8E (35384), CaseRange.mk 0x1E00 0x1E95 UpperLower,
   CaseRange.mk 0x1E9B 0x1E9B (-59), CaseRange.mk 0x1EA0 0x1EFF UpperLower,
   CaseRange.mk 0x1F00 0x1F07 (8), CaseRange.mk 0x1F10 0x1F15 (8), CaseRange.mk 0x1F20 0x1F27 (8),
   CaseRange.mk 0x1F30 0x1F37 (8), CaseRange.mk 0x1F40 0x1F45 (8), CaseRange.mk 0x1F51 0x1F51 (8),
   CaseRange.mk 0x1F53 0x1F53 (8), CaseRange.mk 0x1F55 0x1F55 (8), CaseRange.mk 0x1F57 0x1F57 (8),
   CaseRange.mk 0x1F60 0x1F67 (8), CaseRange.mk 0x1F70 0x1F71 (74),
   CaseRange.mk 0x1F72 0x1F75 (86), CaseRange.mk 0x1F76 0x1F77 (100),
   CaseRange.mk 0x1F78 0x1F79 (128), CaseRange.mk 0x1F7A 0x1F7B (112),
   CaseRange.mk 0x1F7C 0x1F7D (126), CaseRange.mk 0x1F80 0x1F87 (8),
   CaseRange.mk 0x1F90 0x1F97 (8), CaseRange.mk 0x1FA0 0x1FA7 (8), CaseRange.mk 0x1FB0 0x1FB1 (8),
   CaseRange.mk 0x1FB3 0x1FB3 (9), CaseRange.mk 0x1FBE 0x1FBE (-7205),
   CaseRange.mk 0x1FC3 0x1FC3 (9), CaseRange.mk 0x1FD0 0x1FD1 (8), CaseRange.mk 0x1FE0 0x1FE1 (8),
   CaseRange.mk 0x1FE5 0x1FE5 (7), CaseRange.mk 0x1FF3 0x1FF3 (9),
   CaseRange.mk 0x214E 0x214E (-28), CaseRange.mk 0x2170 0x217F (-16),
   CaseRange.mk 0x2183 0x2184 UpperLower, CaseRange.mk 0x24D0 0x24E9 (-26),
   CaseRange.mk 0x2C30 0x2C5F (-48), CaseRange.mk 0x2C60 0x2C61 UpperLower,
   CaseRange.mk 0x2C65 0x2C65 (-10795), CaseRange.mk 0x2C66 0x2C66 (-10792),
   CaseRange.mk 0x2C67 0x2C6C UpperLower, CaseRange.mk 0x2C72 0x2C73 UpperLower,
   CaseRange.mk 0x2C75 0x2C76 UpperLower, CaseRange.mk 0x2C80 0x2CE3 UpperLower,
   CaseRange.mk 0x2CEB 0x2CEE UpperLower, CaseRange.mk 0x2CF2 0x2CF3 UpperLower,
   CaseRange.mk 0x2D00 0x2D25 (-7264), CaseRange.mk 0x2D27 0x2D27 (-7264),
   CaseRange.mk 0x2D2D 0x2D2D (-7264), CaseRange.mk 0xA640 0xA66D UpperLower,
   CaseRange.mk 0xA680 0xA69B UpperLower, CaseRange.mk 0xA722 0xA72F UpperLower,
   CaseRange.mk 0xA732 0xA76F UpperLower, CaseRange.mk 0xA779 0xA77C UpperLower,
   CaseRange.mk 0xA77E 0xA787 UpperLower, CaseRange.mk 0xA78B 0xA78C UpperLower,
   CaseRange.mk 0xA790 0xA793 UpperLower, CaseRange.mk 0xA794 0xA794 (48),
   CaseRange.mk 0xA796 0xA7A9 UpperLower, CaseRange.mk 0xA7B4 0xA7C3 UpperLower,
   CaseRange.mk 0xA7C7 0xA7CA UpperLower, CaseRange.mk 0xA7D0 0xA7D1 UpperLower,
   CaseRange.mk 0xA7D6 0xA7D9 UpperLower, CaseRange.mk 0xA7F5 0xA7F6 UpperLower,
   CaseRange.mk 0xAB53 0xAB53 (-928), CaseRange.mk 0xAB70 0xABBF (-38864),
   CaseRange.mk 0xFF41 0xFF5A (-32), CaseRange.mk 0x10428 0x1044F (-40),
   CaseRange.mk 0x104D8 0x104FB (-40), CaseRange.mk 0x10597 0x105A1 (-39),
   CaseRange.mk 0x105A3 0x105B1 (-39), CaseRange.mk 0x105B3 0x105B9 (-39),
   CaseRange.mk 0x105BB 0x105BC (-39), CaseRange.mk 0x10CC0 0x10CF2 (-64),
   CaseRange.mk 0x118C0 0x118DF (-32), CaseRange.mk 0x16E60 0x16E7F (-32),
   CaseRange.mk 0x1E922 0x1E943 (-34)]

/-- The lookup `unicode.To(unicode.UpperCase, r)`. -/
def toUpperCase (r : Nat) : Int := unicodeTo CaseRanges r

/-- A check that no range of `T` moves a rune between `a` and `b`: each range
lies outside, or is an `UpperLower` range with the single rune `a = b` at an
even offset. -/
def fixedOn (T : List CaseRange) (a b : Nat) : Bool :=
  T.all (fun cr => decide (b < cr.Lo ∨ cr.Hi < a ∨
    ((MaxRune : Int) < cr.Delta ∧ a = b ∧ cr.Lo ≤ a ∧ a ≤ cr.Hi ∧ (a - cr.Lo) % 2 = 0)))

/-- A check that the runes at the even offsets of the `UpperLower` range
`lo` to `hi` are met by no other range of `T`. -/
def fixedAlt (T : List CaseRange) (lo hi : Nat) : Bool :=
  T.all (fun cr => decide (hi < cr.Lo ∨ cr.Hi < lo ∨
    (cr.Lo = lo ∧ cr.Hi = hi ∧ (MaxRune : Int) < cr.Delta)))

/-- The runes from `a` to `b` are scalar values. -/
def validInterval (a b : Nat) : Bool :=
  decide (a ≤ b ∧ b ≤ 0x10FFFF ∧ (b < 0xD800 ∨ 0xDFFF < a))

/-- A check of one range of `T`: its images are scalar values, none of them
an ASCII lower-case letter, and no range of `T` moves them again. -/
def entryOK (T : List CaseRange) (cr : CaseRange) : Bool :=
  if (MaxRune : Int) < cr.Delta then
    decide (0x80 ≤ cr.Lo) && validInterval cr.Lo cr.Hi && fixedAlt T cr.Lo cr.Hi
  else
    decide (0 ≤ (cr.Lo : Int) + cr.Delta) &&
      validInterval ((cr.Lo : Int) + cr.Delta).toNat ((cr.Hi : Int) + cr.Delta).toNat &&
      decide (((cr.Hi : Int) + cr.Delta).toNat < 0x61 ∨
        0x7A < ((cr.Lo : Int) + cr.Delta).toNat) &&
      fixedOn T ((cr.Lo : Int) + cr.Delta).toNat ((cr.Hi : Int) + cr.Delta).toNat

/-- The check of every range of a table. -/
def tableOK (T : List CaseRange) : Bool := T.all (entryOK T)

/-- The function `unicode.ToUpper`: ASCII is mapped directly, any other rune
through the case table. -/
def unicodeToUpper (caseUpper : Nat → Int) (r : Nat) : Int :=
  if r ≤ 0x7F then
    if 0x61 ≤ r ∧ r ≤ 0x7A then ((r - 32 : Nat) : Int) else (r : Int)
  else caseUpper r

/-- The function `strings.Map`: every rune of the range loop is replaced by
the encoding of its image; a negative image drops the rune, and an ill-formed
byte is read as `U+FFFD`. -/
def Map (mapping : Nat → Int) (s : GoString) : GoString :=
  (rangeRunes s).flatMap
    (fun c => if mapping c < 0 then [] else stringOfRune (mapping c).toNat)

/-- An ASCII lower-case letter. -/
def isLowerByte (c : Byte) : Bool := decide (0x61 ≤ c.val ∧ c.val ≤ 0x7A)

/-- The function `strings.ToUpper`: a string of ASCII bytes is upper-cased
byte by byte (and returned as it is when it has no lower-case letter), any
other string goes through `Map(unicode.ToUpper, s)`. -/
def ToUpper (caseUpper : Nat → Int) (s : GoString) : GoString :=
  if s.all (fun c => decide (c.val < 0x80)) then
    if s.any isLowerByte then
      s.map (fun c => if isLowerByte c then byte (c.val - 32) else c)
    else s
  else Map (unicodeToUpper caseUpper) s

/-! ## The service -/

/-- The function `reverseString`: each rune of the range loop is put in front
of the string built so far. -/
def reverseString (s : GoString) : GoString :=
  (rangeRunes s).foldl (fun strRev c => stringOfRune c ++ strRev) []

/-- A Go `error` made by `errors.New`: its message. -/
structure GoError where
  msg : GoString
deriving DecidableEq

/-- The method `Error()` of an error. -/
def GoError.Error (e : GoError) : GoString := e.msg

/-- The variable `ErrEmpty`. -/
def ErrEmpty : GoError := ⟨lit "empty string"⟩

/-- The interface `StringService`. -/
structure StringService where
  Uppercase : GoString → GoString × Option GoError
  Count : GoString → Nat
  Reverse : GoString → GoString × Option GoError
  isPelindrome : GoString → GoString

/-- The method `stringService.Uppercase`. -/
def Uppercase (caseUpper : Nat → Int) (s : GoString) : GoString × Option GoError :=
  if s = [] then ([], some ErrEmpty) else (ToUpper caseUpper s, none)

/-- The method `stringService.Count`: `len(s)`, the number of bytes. -/
def Count (s : GoString) : Nat := s.length

/-- The method `stringService.Reverse`. -/
def Reverse (s : GoString) : GoString × Option GoError :=
  if s = [] then ([], some ErrEmpty) else (reverseString s, none)

/-- The method `stringService.isPelindrome`. -/
def isPelindrome (s : GoString) : GoString :=
  if s = reverseString s then lit "True" else lit "False"

/-- The type `stringService` as an implementation of `StringService`. -/
def stringService (caseUpper : Nat → Int) : StringService where
  Uppercase := Uppercase caseUpper
  Count := Count
  Reverse := Reverse
  isPelindrome := isPelindrome

/-! ## Requests, responses and endpoints -/

structure uppercaseRequest where
  S : GoString

structure uppercaseResponse where
  V : GoString
  Err : GoString
deriving DecidableEq

structure countRequest where
  S : GoString

structure countResponse where
  V : Nat
deriving DecidableEq

structure reverseRequest where
  S : GoString

structure reverseResponse where
  V : GoString
  Err : GoString
deriving DecidableEq

structure isPelindromeRequest where
  S : GoString

structure isPelindromeResponse where
  Result : GoString
deriving DecidableEq

/-- The endpoint of `makeUppercaseEndpoint` on a request that passes the type
assertion `request.(uppercaseRequest)`: the response and the error. -/
def makeUppercaseEndpoint (svc : StringService) (request : uppercaseRequest) :
    uppercaseResponse × Option GoError :=
  match svc.Uppercase request.S with
  | (v, some err) => (⟨v, err.Error⟩, none)
  | (v, none) => (⟨v, []⟩, none)

/-- The endpoint of `makeCountEndpoint`. -/
def makeCountEndpoint (svc : StringService) (request : countRequest) :
    countResponse × Option GoError :=
  (⟨svc.Count request.S⟩, none)

/-- The endpoint of `makeReverseEndpoint`. -/
def makeReverseEndpoint (svc : StringService) (request : reverseRequest) :
    reverseResponse × Option GoError :=
  match svc.Reverse request.S with
  | (v, some err) => (⟨v, err.Error⟩, none)
  | (v, none) => (⟨v, []⟩, none)

/-- The endpoint of `makeIsPelindromeEndpoint`. -/
def makeIsPelindromeEndpoint (svc : StringService) (request : isPelindromeRequest) :
    isPelindromeResponse × Option GoError :=
  (⟨svc.isPelindrome request.S⟩, none)

/-! ## Struct tags and the JSON encoding of a response

The functions of packages `reflect` and `encoding/json` that decide under
which key a struct field is written. -/

/-- The scan of a quoted tag value from the byte after its opening quote:
the text up to the closing quote and the rest of the tag behind it; a
backslash takes the next character with it. `none` when the quote is never
closed. -/
def scanQuoted : List Char → List Char → Option (List Char × List Char)
  | _, [] => none
  | acc, c :: rest =>
    if c = '"' then some (acc.reverse, rest)
    else if c = '\\' then
      match rest with
      | [] => none
      | d :: rest2 => scanQuoted (d :: c :: acc) rest2
    else scanQuoted (c :: acc) rest

/-- The function `strconv.Unquote` on the text between the quotes of a tag
value: a text without backslash and newline stands for itself and a newline
is a syntax error. A text with a backslash goes through the escape
interpreter of `strconv`, which is no part of this development (no tag of the
program has one): it is refused here. -/
def unquote (text : List Char) : Option (List Char) :=
  if text.any (fun c => c = '\\' || c = '\n') then none else some text

/-- A character that may stand in the key of a tag: above the space, and no
colon, quote or `DEL`. -/
def tagKeyChar (c : Char) : Bool :=
  decide (' ' < c) && c != ':' && c != '"' && c != Char.ofNat 0x7f

/-- The loop of `reflect.StructTag.Lookup`, one `key:"value"` pair for each
unit of fuel: `some (some v)` when `key` is found with value `v`,
`some none` when the loop ends without it (the tag is exhausted or is not of
the conventional form), `none` when the fuel runs out. -/
def lookupLoop (key : List Char) : Nat → List Char → Option (Option (List Char))
  | 0, _ => none
  | fuel + 1, tag =>
    match tag.dropWhile (fun c => c = ' ') with
    | [] => some none
    | c :: cs =>
      match (c :: cs).takeWhile tagKeyChar, (c :: cs).dropWhile tagKeyChar with
      | [], _ => some none
      | name, ':' :: '"' :: rest =>
        match scanQuoted [] rest with
        | none => some none
        | some (text, tag2) =>
          if key = name then some (unquote text) else lookupLoop key fuel tag2
      | _, _ => some none

/-- The method `reflect.StructTag.Get`: the value of `key` in `tag`, and the
empty string when `Lookup` does not find it. A tag of `n` characters has
fewer than `n + 1` pairs. -/
def StructTag.Get (tag : String) (key : String) : List Char :=
  match lookupLoop key.toList (tag.length + 1) tag.toList with
  | some (some v) => v
  | _ => []

/-- The function `parseTag` of `encoding/json`: the tag is cut at its first
comma into a name and the options. -/
def parseTag (tag : List Char) : List Char × List Char :=
  (tag.takeWhile (fun c => c != ','), (tag.dropWhile (fun c => c != ',')).drop 1)

/-- The function `isValidTag` of `encoding/json` on ASCII names (letters and
digits beyond ASCII need the tables of package `unicode`; the program has
none in its tags). -/
def isValidTag (name : List Char) : Bool :=
  !name.isEmpty &&
    name.all (fun c => "!#$%&()*+-./:;<=>?@[]^_\x7b|\x7d~ ".toList.contains c || c.isAlphanum)

/-- The pieces of a comma-separated list of options. -/
def splitOptions : List Char → List Char → List (List Char)
  | acc, [] => [acc.reverse]
  | acc, c :: rest =>
    if c = ',' then acc.reverse :: splitOptions [] rest else splitOptions (c :: acc) rest

/-- The method `tagOptions.Contains`. -/
def tagOptionsContains (opts : List Char) (optionName : String) : Bool :=
  !opts.isEmpty && (splitOptions [] opts).contains optionName.toList

/-- The value of a struct field of the responses: a string or an `int`. -/
inductive FieldValue where
  | string (s : GoString)
  | int (n : Int)
deriving DecidableEq

/-- The function `isEmptyValue` of `encoding/json` on these two kinds. -/
def isEmptyValue : FieldValue → Bool
  | .string s => s.isEmpty
  | .int n => n == 0

/-- An exported field of a struct type as declared: its name and its tag,
with the value it holds. -/
structure StructField where
  name : String
  tag : String
  value : FieldValue

/-- The members of the JSON object that `json.Encoder.Encode` writes for a
struct: for each field, in order, the key decided by its `json` tag (the
name of the field when the tag gives none) with its value; a field tagged
`-` and an empty field with `omitempty` are left out. -/
def encodeStruct (fields : List StructField) : List (String × FieldValue) :=
  fields.filterMap (fun f =>
    if StructTag.Get f.tag "json" = ['-'] then none
    else
      let parsed := parseTag (StructTag.Get f.tag "json")
      let name := if isValidTag parsed.1 then parsed.1 else []
      if tagOptionsContains parsed.2 "omitempty" && isEmptyValue f.value then none
      else some (if name.isEmpty then f.name else String.mk name, f.value))

/-- The value `response interface{}` that an endpoint hands to
`encodeResponse`. -/
inductive Response where
  | uppercase (r : uppercaseResponse)
  | count (r : countResponse)
  | reverse (r : reverseResponse)
  | isPelindrome (r : isPelindromeResponse)

/-- The fields of the response structs with their tags, as declared. -/
def Response.fields : Response → List StructField
  | .uppercase r =>
    [⟨"V", "json:\"v\"", .string r.V⟩, ⟨"Err", "json:\"err,omitempty\"", .string r.Err⟩]
  | .count r => [⟨"V", "json:\"v\"", .int r.V⟩]
  | .reverse r =>
    [⟨"V", "json:\"v\"", .string r.V⟩, ⟨"Err", "json:\"err,omitempty\"", .string r.Err⟩]
  | .isPelindrome r => [⟨"Result", "json: \"result\"", .string r.Result⟩]

/-- The function `encodeResponse`: the JSON object written for a response. -/
def encodeResponse (response : Response) : List (String × FieldValue) :=
  encodeStruct response.fields

/-! ## The notions of the specification -/

/-- The number of Unicode code points in `s`, the specification's measure of
a string: the number of runes a range loop reads (`utf8.RuneCountInString`). -/
def codePointCount (s : GoString) : Nat := (rangeRunes s).length

/-- The code-point-reversed form of `s` in the specification's words: the
encoding of the code points of `s` taken in reverse order. -/
def codePointReversed (s : GoString) : GoString := encodeRunes (rangeRunes s).reverse


/-! ## UTF-8 lemmas -/

theorem byte_val (n : Nat) : (byte n).val = n % 256 := rfl

theorem byte_of_val (b : Byte) : byte b.val = b := by
  apply Fin.ext
  have := b.isLt
  simp only [byte_val]
  omega

theorem leadInfo_eq_some {b sz lo hi : Nat} (h : leadInfo b = some (sz, lo, hi)) :
    (sz = 2 ∧ lo = 0x80 ∧ hi = 0xBF ∧ 0xC2 ≤ b ∧ b ≤ 0xDF) ∨
    (sz = 3 ∧ 0x80 ≤ lo ∧ hi ≤ 0xBF ∧ 0xE0 ≤ b ∧ b ≤ 0xEF ∧ (b = 0xE0 → lo = 0xA0)
      ∧ (b = 0xED → hi = 0x9F)) ∨
    (sz = 4 ∧ 0x80 ≤ lo ∧ hi ≤ 0xBF ∧ 0xF0 ≤ b ∧ b ≤ 0xF4 ∧ (b = 0xF0 → lo = 0x90)
      ∧ (b = 0xF4 → hi = 0x8F)) := by
  unfold leadInfo at h
  split_ifs at h <;> simp only [Option.some.injEq, Prod.mk.injEq, reduceCtorEq] at h <;>
    obtain ⟨rfl, rfl, rfl⟩ := h <;> simp <;> omega

theorem stringOfRune_two (s0 s1 : Byte) (h0 : 0xC2 ≤ s0.val ∧ s0.val ≤ 0xDF)
    (h1 : 0x80 ≤ s1.val ∧ s1.val ≤ 0xBF) :
    stringOfRune (s0.val % 32 * 64 + s1.val % 64) = [s0, s1] := by
  unfold stringOfRune MaxRune
  split_ifs <;> first
    | (exfalso; omega)
    | (simp only [List.cons.injEq, and_true, Fin.ext_iff, byte_val]; omega)

theorem stringOfRune_three (s0 s1 s2 : Byte) (h0 : 0xE0 ≤ s0.val ∧ s0.val ≤ 0xEF)
    (h1 : 0x80 ≤ s1.val ∧ s1.val ≤ 0xBF) (hE0 : s0.val = 0xE0 → 0xA0 ≤ s1.val)
    (hED : s0.val = 0xED → s1.val ≤ 0x9F) (h2 : 0x80 ≤ s2.val ∧ s2.val ≤ 0xBF) :
    stringOfRune (s0.val % 16 * 4096 + s1.val % 64 * 64 + s2.val % 64) = [s0, s1, s2] := by
  unfold stringOfRune MaxRune
  split_ifs <;> first
    | (exfalso; omega)
    | (simp only [List.cons.injEq, and_true, Fin.ext_iff, byte_val]; omega)

theorem stringOfRune_four (s0 s1 s2 s3 : Byte) (h0 : 0xF0 ≤ s0.val ∧ s0.val ≤ 0xF4)
    (h1 : 0x80 ≤ s1.val ∧ s1.val ≤ 0xBF) (hF0 : s0.val = 0xF0 → 0x90 ≤ s1.val)
    (hF4 : s0.val = 0xF4 → s1.val ≤ 0x8F) (h2 : 0x80 ≤ s2.val ∧ s2.val ≤ 0xBF)
    (h3 : 0x80 ≤ s3.val ∧ s3.val ≤ 0xBF) :
    stringOfRune (s0.val % 8 * 262144 + s1.val % 64 * 4096 + s2.val % 64 * 64 + s3.val % 64)
      = [s0, s1, s2, s3] := by
  unfold stringOfRune MaxRune
  split_ifs <;> first
    | (exfalso; omega)
    | (simp only [List.cons.injEq, and_true, Fin.ext_iff, byte_val]; omega)

theorem validRune_runeError : ValidRune RuneError := by
  unfold ValidRune RuneError; omega

theorem decodeRune_cases (s0 : Byte) (t : GoString) (c w : Nat)
    (h : decodeRune (s0 :: t) = (c, w)) :
    (c = RuneError ∧ w = 1) ∨
    (ValidRune c ∧ (stringOfRune c).length = w ∧
      stringOfRune c ++ (s0 :: t).drop w = s0 :: t) := by
  have hb := s0.isLt
  simp only [decodeRune] at h
  split_ifs at h with h0
  · simp only [Prod.mk.injEq] at h
    obtain ⟨rfl, rfl⟩ := h
    right
    have e : stringOfRune s0.val = [s0] := by
      unfold stringOfRune
      rw [if_pos (by omega), byte_of_val]
    refine ⟨?_, ?_, ?_⟩
    · unfold ValidRune; omega
    · rw [e]; rfl
    · rw [e]; rfl
  · cases hl : leadInfo s0.val with
    | none =>
      rw [hl] at h
      simp only [Prod.mk.injEq] at h
      exact Or.inl ⟨h.1.symm, h.2.symm⟩
    | some p =>
      obtain ⟨sz, lo, hi⟩ := p
      rw [hl] at h
      simp only at h
      have hinfo := leadInfo_eq_some hl
      rcases hinfo with ⟨rfl, rfl, rfl, hr⟩ | ⟨rfl, hr⟩ | ⟨rfl, hr⟩
      · rcases t with _ | ⟨s1, t1⟩ <;> simp only [] at h <;> split_ifs at h
        all_goals first
          | (simp only [Prod.mk.injEq] at h; exact Or.inl ⟨h.1.symm, h.2.symm⟩)
          | (exfalso; omega)
          | (simp only [Prod.mk.injEq] at h
             obtain ⟨rfl, rfl⟩ := h
             right
             have e := stringOfRune_two s0 s1 (by omega) (by omega)
             refine ⟨?_, ?_, ?_⟩
             · unfold ValidRune; omega
             · rw [e]; rfl
             · rw [e]; rfl)
      · rcases t with _ | ⟨s1, _ | ⟨s2, t2⟩⟩ <;> simp only [] at h <;> split_ifs at h
        all_goals first
          | (simp only [Prod.mk.injEq] at h; exact Or.inl ⟨h.1.symm, h.2.symm⟩)
          | (exfalso; omega)
          | (simp only [Prod.mk.injEq] at h
             obtain ⟨rfl, rfl⟩ := h
             right
             have e := stringOfRune_three s0 s1 s2 (by omega) (by omega) (by omega)
               (by omega) (by omega)
             refine ⟨?_, ?_, ?_⟩
             · unfold ValidRune; omega
             · rw [e]; rfl
             · rw [e]; rfl)
      · rcases t with _ | ⟨s1, _ | ⟨s2, _ | ⟨s3, t3⟩⟩⟩ <;> simp only [] at h <;> split_ifs at h
        all_goals first
          | (simp only [Prod.mk.injEq] at h; exact Or.inl ⟨h.1.symm, h.2.symm⟩)
          | (exfalso; omega)
          | (simp only [Prod.mk.injEq] at h
             obtain ⟨rfl, rfl⟩ := h
             right
             have e := stringOfRune_four s0 s1 s2 s3 (by omega) (by omega) (by omega)
               (by omega) (by omega) (by omega)
             refine ⟨?_, ?_, ?_⟩
             · unfold ValidRune; omega
             · rw [e]; rfl
             · rw [e]; rfl)


theorem byte_val_of_lt {n : Nat} (h : n < 256) : (byte n).val = n := by
  simp only [byte_val]; omega

theorem leadInfo_four (a b : Nat) (ha : a < 5) (hb : b < 64)
    (h0 : a = 0 → 16 ≤ b) (h4 : a = 4 → b < 16) : ∃ lo hi,
      leadInfo (0xF0 + a) = some (4, lo, hi) ∧ lo ≤ 0x80 + b ∧ 0x80 + b ≤ hi := by
  unfold leadInfo
  by_cases e0 : a = 0
  · subst e0
    exact ⟨_, _, rfl, by omega, by omega⟩
  · by_cases e4 : a = 4
    · subst e4
      exact ⟨_, _, rfl, by omega, by omega⟩
    · refine ⟨0x80, 0xBF, ?_, by omega, by omega⟩
      rw [if_neg (show ¬ (0xF0 + a < 0xC2) by omega), if_neg (show ¬ (0xF0 + a ≤ 0xDF) by omega),
        if_neg (show ¬ (0xF0 + a = 0xE0) by omega), if_neg (show ¬ (0xF0 + a ≤ 0xEC) by omega),
        if_neg (show ¬ (0xF0 + a = 0xED) by omega), if_neg (show ¬ (0xF0 + a ≤ 0xEF) by omega),
        if_neg (show ¬ (0xF0 + a = 0xF0) by omega), if_pos (show 0xF0 + a ≤ 0xF3 by omega)]

theorem decodeRune_bytes4 (a b d e : Nat) (ha : a < 5) (hb : b < 64) (hd : d < 64)
    (he : e < 64) (h0 : a = 0 → 16 ≤ b) (h4 : a = 4 → b < 16) (s : GoString) :
    decodeRune (byte (0xF0 + a) :: byte (0x80 + b) :: byte (0x80 + d) :: byte (0x80 + e) :: s)
      = (a * 262144 + b * 4096 + d * 64 + e, 4) := by
  obtain ⟨lo, hi, hl, hlo, hhi⟩ := leadInfo_four a b ha hb h0 h4
  have v0 := byte_val_of_lt (show 0xF0 + a < 256 by omega)
  have v1 := byte_val_of_lt (show 0x80 + b < 256 by omega)
  have v2 := byte_val_of_lt (show 0x80 + d < 256 by omega)
  have v3 := byte_val_of_lt (show 0x80 + e < 256 by omega)
  simp only [decodeRune]
  simp only [v0, v1, v2, v3, hl, List.length_cons]
  rw [if_neg (show ¬ (240 + a < 128) by omega),
    if_neg (show ¬ (s.length + 1 + 1 + 1 + 1 < 4) by omega),
    if_neg (show ¬ (128 + b < lo ∨ hi < 128 + b) by omega),
    if_neg (show ¬ (4 ≤ 2) by omega),
    if_neg (show ¬ (128 + d < 128 ∨ 191 < 128 + d) by omega),
    if_neg (show ¬ (4 ≤ 3) by omega),
    if_neg (show ¬ (128 + e < 128 ∨ 191 < 128 + e) by omega)]
  simp only [Prod.mk.injEq, and_true]
  omega

theorem leadInfo_three (a b : Nat) (ha : a < 16) (hb : b < 64)
    (h0 : a = 0 → 32 ≤ b) (h13 : a = 13 → b < 32) : ∃ lo hi,
      leadInfo (0xE0 + a) = some (3, lo, hi) ∧ lo ≤ 0x80 + b ∧ 0x80 + b ≤ hi := by
  unfold leadInfo
  by_cases e0 : a = 0
  · subst e0
    exact ⟨_, _, rfl, by omega, by omega⟩
  · by_cases e13 : a = 13
    · subst e13
      exact ⟨_, _, rfl, by omega, by omega⟩
    · refine ⟨0x80, 0xBF, ?_, by omega, by omega⟩
      rw [if_neg (show ¬ (0xE0 + a < 0xC2) by omega), if_neg (show ¬ (0xE0 + a ≤ 0xDF) by omega),
        if_neg (show ¬ (0xE0 + a = 0xE0) by omega)]
      by_cases e12 : a ≤ 12
      · rw [if_pos (show 0xE0 + a ≤ 0xEC by omega)]
      · rw [if_neg (show ¬ (0xE0 + a ≤ 0xEC) by omega),
          if_neg (show ¬ (0xE0 + a = 0xED) by omega), if_pos (show 0xE0 + a ≤ 0xEF by omega)]

theorem decodeRune_bytes3 (a b d : Nat) (ha : a < 16) (hb : b < 64) (hd : d < 64)
    (h0 : a = 0 → 32 ≤ b) (h13 : a = 13 → b < 32) (s : GoString) :
    decodeRune (byte (0xE0 + a) :: byte (0x80 + b) :: byte (0x80 + d) :: s)
      = (a * 4096 + b * 64 + d, 3) := by
  obtain ⟨lo, hi, hl, hlo, hhi⟩ := leadInfo_three a b ha hb h0 h13
  have v0 := byte_val_of_lt (show 0xE0 + a < 256 by omega)
  have v1 := byte_val_of_lt (show 0x80 + b < 256 by omega)
  have v2 := byte_val_of_lt (show 0x80 + d < 256 by omega)
  simp only [decodeRune]
  simp only [v0, v1, v2, hl, List.length_cons]
  rw [if_neg (show ¬ (224 + a < 128) by omega),
    if_neg (show ¬ (s.length + 1 + 1 + 1 < 3) by omega),
    if_neg (show ¬ (128 + b < lo ∨ hi < 128 + b) by omega),
    if_neg (show ¬ (3 ≤ 2) by omega),
    if_neg (show ¬ (128 + d < 128 ∨ 191 < 128 + d) by omega),
    if_pos (show 3 ≤ 3 by omega)]
  simp only [Prod.mk.injEq, and_true]
  omega

theorem decodeRune_bytes2 (a b : Nat) (ha : 2 ≤ a ∧ a < 32) (hb : b < 64) (s : GoString) :
    decodeRune (byte (0xC0 + a) :: byte (0x80 + b) :: s) = (a * 64 + b, 2) := by
  have hl : leadInfo (0xC0 + a) = some (2, 0x80, 0xBF) := by
    unfold leadInfo
    rw [if_neg (show ¬ (0xC0 + a < 0xC2) by omega), if_pos (show 0xC0 + a ≤ 0xDF by omega)]
  have v0 := byte_val_of_lt (show 0xC0 + a < 256 by omega)
  have v1 := byte_val_of_lt (show 0x80 + b < 256 by omega)
  simp only [decodeRune]
  simp only [v0, v1, hl, List.length_cons]
  rw [if_neg (show ¬ (192 + a < 128) by omega),
    if_neg (show ¬ (s.length + 1 + 1 < 2) by omega),
    if_neg (show ¬ (128 + b < 128 ∨ 191 < 128 + b) by omega),
    if_pos (show 2 ≤ 2 by omega)]
  simp only [Prod.mk.injEq, and_true]
  omega

theorem decodeRune_enc1 (c : Nat) (h : c ≤ 0x7F) (s : GoString) :
    decodeRune (byte c :: s) = (c, 1) := by
  simp only [decodeRune, byte_val_of_lt (show c < 256 by omega)]
  rw [if_pos (by omega)]

theorem decodeRune_stringOfRune (c : Nat) (hc : ValidRune c) (s : GoString) :
    decodeRune (stringOfRune c ++ s) = (c, (stringOfRune c).length) := by
  unfold ValidRune at hc
  unfold stringOfRune MaxRune
  split_ifs with h1 h2 h3 h4
  · exact decodeRune_enc1 c h1 s
  · have e := decodeRune_bytes2 (c / 64) (c % 64) (by omega) (by omega) s
    rw [show c / 64 * 64 + c % 64 = c by omega] at e
    exact e
  · exfalso; omega
  · have e := decodeRune_bytes3 (c / 4096) (c / 64 % 64) (c % 64) (by omega) (by omega)
      (by omega) (by omega) (by omega) s
    rw [show c / 4096 * 4096 + c / 64 % 64 * 64 + c % 64 = c by omega] at e
    exact e
  · have e := decodeRune_bytes4 (c / 262144) (c / 4096 % 64) (c / 64 % 64) (c % 64)
      (by omega) (by omega) (by omega) (by omega) (by omega) (by omega) s
    rw [show c / 262144 * 262144 + c / 4096 % 64 * 4096 + c / 64 % 64 * 64 + c % 64 = c
      by omega] at e
    exact e


theorem stringOfRune_length (c : Nat) :
    1 ≤ (stringOfRune c).length ∧ (stringOfRune c).length ≤ 4 := by
  unfold stringOfRune
  split_ifs <;> simp

theorem stringOfRune_ne_nil (c : Nat) : stringOfRune c ≠ [] := by
  intro h
  have := (stringOfRune_length c).1
  rw [h] at this
  simp at this

theorem decodeRune_width_pos (b : Byte) (rest : GoString) :
    1 ≤ (decodeRune (b :: rest)).2 := by
  rcases hd : decodeRune (b :: rest) with ⟨c, w⟩
  rcases decodeRune_cases b rest c w hd with h | h
  · simp only [h.2, le_refl]
  · have := (stringOfRune_length c).1
    simp only
    omega

theorem rangeFrom_eq_drop (k : Nat) (s : GoString) :
    rangeFrom k s = rangeFrom 0 (s.drop k) := by
  induction s generalizing k with
  | nil => simp [rangeFrom]
  | cons b rest ih =>
    cases k with
    | zero => simp
    | succ k => simp only [rangeFrom, List.drop_succ_cons]; exact ih k

theorem rangeRunes_nil : rangeRunes [] = [] := rfl

theorem rangeRunes_cons (b : Byte) (rest : GoString) :
    rangeRunes (b :: rest) = (decodeRune (b :: rest)).1
      :: rangeRunes ((b :: rest).drop (decodeRune (b :: rest)).2) := by
  have hw := decodeRune_width_pos b rest
  unfold rangeRunes
  rw [rangeFrom, rangeFrom_eq_drop]
  obtain ⟨w, hw'⟩ : ∃ w, (decodeRune (b :: rest)).2 = w + 1 := ⟨_, (Nat.sub_add_cancel hw).symm⟩
  rw [hw']
  simp

theorem rangeRunes_stringOfRune_append (c : Nat) (hc : ValidRune c) (s : GoString) :
    rangeRunes (stringOfRune c ++ s) = c :: rangeRunes s := by
  have hd := decodeRune_stringOfRune c hc s
  rcases hne : stringOfRune c with _ | ⟨b, rest⟩
  · exact absurd hne (stringOfRune_ne_nil c)
  · rw [hne] at hd
    rw [List.cons_append, rangeRunes_cons, ← List.cons_append, hd]
    simp

theorem rangeRunes_encodeRunes (cs : List Nat) (h : ∀ c ∈ cs, ValidRune c) :
    rangeRunes (encodeRunes cs) = cs := by
  induction cs with
  | nil => rfl
  | cons c cs ih =>
    have hc := h c (List.mem_cons_self _ _)
    have ih' := ih (fun x hx => h x (List.mem_cons_of_mem _ hx))
    unfold encodeRunes at ih' ⊢
    rw [List.flatMap_cons, rangeRunes_stringOfRune_append c hc, ih']

theorem rangeRunes_valid_aux (n : Nat) :
    ∀ s : GoString, s.length ≤ n → ∀ c ∈ rangeRunes s, ValidRune c := by
  induction n with
  | zero =>
    intro s hs c hc
    have : s = [] := List.length_eq_zero.mp (Nat.le_zero.mp hs)
    subst this
    simp [rangeRunes_nil] at hc
  | succ n ih =>
    intro s hs c hc
    rcases s with _ | ⟨b, rest⟩
    · simp [rangeRunes_nil] at hc
    · rw [rangeRunes_cons] at hc
      have hw := decodeRune_width_pos b rest
      rcases hd : decodeRune (b :: rest) with ⟨r, w⟩
      rw [hd] at hc hw
      simp only at hc hw
      rcases List.mem_cons.mp hc with rfl | hc
      · rcases decodeRune_cases b rest _ _ hd with h | h
        · rw [h.1]; exact validRune_runeError
        · exact h.1
      · refine ih _ ?_ c hc
        rw [List.length_drop]
        simp only [List.length_cons] at hs ⊢
        omega

theorem rangeRunes_valid (s : GoString) : ∀ c ∈ rangeRunes s, ValidRune c :=
  rangeRunes_valid_aux s.length s (le_refl _)

theorem foldl_prepend (cs : List Nat) (acc : GoString) :
    cs.foldl (fun strRev c => stringOfRune c ++ strRev) acc = encodeRunes cs.reverse ++ acc := by
  induction cs generalizing acc with
  | nil => rfl
  | cons c cs ih =>
    rw [List.foldl_cons, ih]
    simp [encodeRunes, List.flatMap_append]

theorem reverseString_eq (s : GoString) :
    reverseString s = encodeRunes (rangeRunes s).reverse := by
  unfold reverseString
  rw [foldl_prepend, List.append_nil]

theorem rangeRunes_reverseString (s : GoString) :
    rangeRunes (reverseString s) = (rangeRunes s).reverse := by
  rw [reverseString_eq, rangeRunes_encodeRunes]
  intro c hc
  exact rangeRunes_valid s c (List.mem_reverse.mp hc)


theorem validFrom_eq_drop (k : Nat) (s : GoString) :
    validFrom k s = validFrom 0 (s.drop k) := by
  induction s generalizing k with
  | nil => simp [validFrom]
  | cons b rest ih =>
    cases k with
    | zero => simp
    | succ k => simp only [validFrom, List.drop_succ_cons]; exact ih k

theorem validString_nil : ValidString [] := rfl

theorem validString_cons (b : Byte) (rest : GoString) :
    ValidString (b :: rest) ↔
      decodeRune (b :: rest) ≠ (RuneError, 1) ∧
        ValidString ((b :: rest).drop (decodeRune (b :: rest)).2) := by
  have hw := decodeRune_width_pos b rest
  unfold ValidString
  rw [validFrom, validFrom_eq_drop]
  obtain ⟨w, hw'⟩ : ∃ w, (decodeRune (b :: rest)).2 = w + 1 := ⟨_, (Nat.sub_add_cancel hw).symm⟩
  rw [hw']
  simp

theorem encodeRunes_rangeRunes_aux (n : Nat) :
    ∀ s : GoString, s.length ≤ n → ValidString s → encodeRunes (rangeRunes s) = s := by
  induction n with
  | zero =>
    intro s hs _
    have : s = [] := List.length_eq_zero.mp (Nat.le_zero.mp hs)
    subst this
    rfl
  | succ n ih =>
    intro s hs hv
    rcases s with _ | ⟨b, rest⟩
    · rfl
    · rw [validString_cons] at hv
      rw [rangeRunes_cons]
      have hw := decodeRune_width_pos b rest
      rcases hd : decodeRune (b :: rest) with ⟨r, w⟩
      rw [hd] at hv hw
      simp only at hv hw ⊢
      rcases decodeRune_cases b rest _ _ hd with h | h
      · exact absurd (by rw [h.1, h.2]) hv.1
      · have hrec := ih ((b :: rest).drop w) (by
          rw [List.length_drop]
          simp only [List.length_cons] at hs ⊢
          omega) hv.2
        unfold encodeRunes at hrec ⊢
        rw [List.flatMap_cons, hrec]
        exact h.2.2

theorem encodeRunes_rangeRunes (s : GoString) (h : ValidString s) :
    encodeRunes (rangeRunes s) = s :=
  encodeRunes_rangeRunes_aux s.length s (le_refl _) h

theorem validString_encodeRunes (cs : List Nat) (h : ∀ c ∈ cs, ValidRune c) :
    ValidString (encodeRunes cs) := by
  induction cs with
  | nil => exact validString_nil
  | cons c cs ih =>
    have hc := h c (List.mem_cons_self _ _)
    have ih' := ih (fun x hx => h x (List.mem_cons_of_mem _ hx))
    have hd := decodeRune_stringOfRune c hc (encodeRunes cs)
    have hlen := stringOfRune_length c
    have e : encodeRunes (c :: cs) = stringOfRune c ++ encodeRunes cs := by
      simp [encodeRunes]
    rw [e]
    rcases hne : stringOfRune c with _ | ⟨b, rest⟩
    · exact absurd hne (stringOfRune_ne_nil c)
    · rw [hne] at hd hlen
      rw [List.cons_append, validString_cons, ← List.cons_append, hd]
      refine ⟨?_, ?_⟩
      · intro hbad
        simp only [Prod.mk.injEq] at hbad
        obtain ⟨h1, h2⟩ := hbad
        subst h1
        have : (stringOfRune RuneError).length = 3 := by decide
        rw [hne] at this
        omega
      · simpa using ih'

/-- A string is valid UTF-8 exactly when it is the encoding of a sequence of
Unicode scalar values. -/
theorem validString_iff (s : GoString) :
    ValidString s ↔ ∃ cs : List Nat, (∀ c ∈ cs, ValidRune c) ∧ encodeRunes cs = s := by
  constructor
  · intro h
    exact ⟨rangeRunes s, rangeRunes_valid s, encodeRunes_rangeRunes s h⟩
  · rintro ⟨cs, hcs, rfl⟩
    exact validString_encodeRunes cs hcs

theorem reverseString_ne_nil (s : GoString) (h : s ≠ []) : reverseString s ≠ [] := by
  rcases s with _ | ⟨b, rest⟩
  · exact absurd rfl h
  · rw [reverseString_eq, rangeRunes_cons, List.reverse_cons]
    unfold encodeRunes
    rw [List.flatMap_append]
    intro hnil
    have h2 := (List.append_eq_nil.mp hnil).2
    simp only [List.flatMap_cons, List.flatMap_nil, List.append_nil] at h2
    exact stringOfRune_ne_nil _ h2

theorem reverseString_reverseString (s : GoString) (h : ValidString s) :
    reverseString (reverseString s) = s := by
  rw [reverseString_eq (reverseString s), rangeRunes_reverseString, List.reverse_reverse,
    encodeRunes_rangeRunes s h]

theorem validString_reverseString (s : GoString) : ValidString (reverseString s) := by
  rw [reverseString_eq]
  apply validString_encodeRunes
  intro c hc
  exact rangeRunes_valid s c (List.mem_reverse.mp hc)


/-! ## The iterations of the range loop -/

theorem stepsFrom_map_fst (k : Nat) (s : GoString) :
    (stepsFrom k s).map Prod.fst = rangeFrom k s := by
  induction s generalizing k with
  | nil => cases k <;> rfl
  | cons b rest ih =>
    cases k with
    | zero => simp only [stepsFrom, rangeFrom, List.map_cons, ih]
    | succ k => simp only [stepsFrom, rangeFrom, ih]

theorem rangeSteps_map_fst (s : GoString) : (rangeSteps s).map Prod.fst = rangeRunes s :=
  stepsFrom_map_fst 0 s

theorem stepsFrom_eq_drop (k : Nat) (s : GoString) :
    stepsFrom k s = stepsFrom 0 (s.drop k) := by
  induction s generalizing k with
  | nil => simp [stepsFrom]
  | cons b rest ih =>
    cases k with
    | zero => simp
    | succ k => simp only [stepsFrom, List.drop_succ_cons]; exact ih k

theorem rangeSteps_cons (b : Byte) (rest : GoString) :
    rangeSteps (b :: rest)
      = ((decodeRune (b :: rest)).1, (b :: rest).take (decodeRune (b :: rest)).2)
        :: rangeSteps ((b :: rest).drop (decodeRune (b :: rest)).2) := by
  have hw := decodeRune_width_pos b rest
  unfold rangeSteps
  rw [stepsFrom, stepsFrom_eq_drop]
  obtain ⟨w, hw'⟩ : ∃ w, (decodeRune (b :: rest)).2 = w + 1 := ⟨_, (Nat.sub_add_cancel hw).symm⟩
  rw [hw']
  simp

theorem rangeSteps_spec_aux (n : Nat) :
    ∀ s : GoString, s.length ≤ n →
      (rangeSteps s).flatMap Prod.snd = s ∧
        ∀ p ∈ rangeSteps s, stringOfRune p.1 = p.2 ∨ (p.1 = RuneError ∧ p.2.length = 1) := by
  induction n with
  | zero =>
    intro s hs
    have : s = [] := List.length_eq_zero.mp (Nat.le_zero.mp hs)
    subst this
    exact ⟨rfl, fun p hp => by simp [rangeSteps, stepsFrom] at hp⟩
  | succ n ih =>
    intro s hs
    rcases s with _ | ⟨b, rest⟩
    · exact ⟨rfl, fun p hp => by simp [rangeSteps, stepsFrom] at hp⟩
    · rw [rangeSteps_cons]
      have hw := decodeRune_width_pos b rest
      rcases hd : decodeRune (b :: rest) with ⟨c, w⟩
      rw [hd] at hw
      simp only at hw ⊢
      obtain ⟨ih1, ih2⟩ := ih ((b :: rest).drop w) (by
        rw [List.length_drop]
        simp only [List.length_cons] at hs ⊢
        omega)
      refine ⟨?_, ?_⟩
      · rw [List.flatMap_cons, ih1]
        exact List.take_append_drop w (b :: rest)
      · intro p hp
        rcases List.mem_cons.mp hp with rfl | hp
        · rcases decodeRune_cases b rest c w hd with h | h
          · right
            refine ⟨h.1, ?_⟩
            rw [h.2]
            rfl
          · left
            simp only
            have e : (b :: rest).take w
                = (stringOfRune c ++ (b :: rest).drop w).take (stringOfRune c).length := by
              rw [h.2.2, h.2.1]
            rw [e, List.take_left]
        · exact ih2 p hp

theorem flatMap_map_fst (l : List (Nat × GoString)) :
    encodeRunes (l.map Prod.fst) = l.flatMap (fun p => stringOfRune p.1) := by
  induction l with
  | nil => rfl
  | cons p l ih =>
    unfold encodeRunes at ih ⊢
    rw [List.map_cons, List.flatMap_cons, List.flatMap_cons, ih]

/-! ## Counting -/

theorem rangeRunes_length_le_aux (n : Nat) :
    ∀ s : GoString, s.length ≤ n → (rangeRunes s).length ≤ s.length := by
  induction n with
  | zero =>
    intro s hs
    have : s = [] := List.length_eq_zero.mp (Nat.le_zero.mp hs)
    subst this
    simp [rangeRunes_nil]
  | succ n ih =>
    intro s hs
    rcases s with _ | ⟨b, rest⟩
    · simp [rangeRunes_nil]
    · rw [rangeRunes_cons]
      have hw := decodeRune_width_pos b rest
      have hrec := ih ((b :: rest).drop (decodeRune (b :: rest)).2) (by
        rw [List.length_drop]
        simp only [List.length_cons] at hs ⊢
        omega)
      rw [List.length_drop] at hrec
      simp only [List.length_cons] at hrec ⊢
      omega

theorem rangeRunes_length_le (s : GoString) : (rangeRunes s).length ≤ s.length :=
  rangeRunes_length_le_aux s.length s (le_refl _)

theorem rangeRunes_ascii (s : GoString) (h : ∀ b ∈ s, b.val < 0x80) :
    rangeRunes s = s.map (fun b => b.val) := by
  induction s with
  | nil => rfl
  | cons b rest ih =>
    have hb := h b (List.mem_cons_self _ _)
    have hd : decodeRune (b :: rest) = (b.val, 1) := by
      simp only [decodeRune]
      rw [if_pos hb]
    rw [rangeRunes_cons, hd]
    simp only [List.drop_succ_cons, List.drop_zero, List.map_cons]
    rw [ih (fun x hx => h x (List.mem_cons_of_mem _ hx))]

theorem encodeRunes_length_reverse (cs : List Nat) :
    (encodeRunes cs.reverse).length = (encodeRunes cs).length := by
  unfold encodeRunes
  exact ((List.reverse_perm cs).flatMap_right stringOfRune).length_eq

theorem reverseString_length (s : GoString) (h : ValidString s) :
    (reverseString s).length = s.length := by
  rw [reverseString_eq, encodeRunes_length_reverse, encodeRunes_rangeRunes s h]


/-! ## Upper-casing -/

theorem unicodeToUpper_props (caseUpper : Nat → Int)
    (hrange : ∀ c, 0x80 ≤ c → ValidRune c →
      0 ≤ caseUpper c ∧ ValidRune (caseUpper c).toNat)
    (hidem : ∀ c, 0x80 ≤ c → ValidRune c →
      unicodeToUpper caseUpper (caseUpper c).toNat = caseUpper c)
    (c : Nat) (hc : ValidRune c) :
    0 ≤ unicodeToUpper caseUpper c ∧ ValidRune (unicodeToUpper caseUpper c).toNat ∧
      unicodeToUpper caseUpper (unicodeToUpper caseUpper c).toNat
        = unicodeToUpper caseUpper c := by
  by_cases h7 : c ≤ 0x7F
  · by_cases hl : 0x61 ≤ c ∧ c ≤ 0x7A
    · have e : unicodeToUpper caseUpper c = ((c - 32 : Nat) : Int) := by
        unfold unicodeToUpper; rw [if_pos h7, if_pos hl]
      have e2 : unicodeToUpper caseUpper (c - 32) = ((c - 32 : Nat) : Int) := by
        unfold unicodeToUpper
        rw [if_pos (show c - 32 ≤ 0x7F by omega),
          if_neg (show ¬ (0x61 ≤ c - 32 ∧ c - 32 ≤ 0x7A) by omega)]
      rw [e, Int.toNat_ofNat, e2]
      refine ⟨Int.ofNat_nonneg _, ?_, rfl⟩
      unfold ValidRune; omega
    · have e : unicodeToUpper caseUpper c = (c : Int) := by
        unfold unicodeToUpper; rw [if_pos h7, if_neg hl]
      rw [e, Int.toNat_ofNat, e]
      exact ⟨Int.ofNat_nonneg _, hc, rfl⟩
  · have e : unicodeToUpper caseUpper c = caseUpper c := by
      unfold unicodeToUpper; rw [if_neg h7]
    rw [e]
    exact ⟨(hrange c (by omega) hc).1, (hrange c (by omega) hc).2, hidem c (by omega) hc⟩

theorem Map_eq_encodeRunes (mapping : Nat → Int) (l : List Nat)
    (h : ∀ c ∈ l, 0 ≤ mapping c) :
    l.flatMap (fun c => if mapping c < 0 then [] else stringOfRune (mapping c).toNat)
      = encodeRunes (l.map (fun c => (mapping c).toNat)) := by
  induction l with
  | nil => rfl
  | cons c l ih =>
    have hc := h c (List.mem_cons_self _ _)
    have ih' := ih (fun x hx => h x (List.mem_cons_of_mem _ hx))
    unfold encodeRunes at ih' ⊢
    rw [List.flatMap_cons, List.map_cons, List.flatMap_cons, ih', if_neg (by omega)]

theorem stringOfRune_all_ascii (c : Nat) :
    (stringOfRune c).all (fun b => decide (b.val < 0x80)) = decide (c ≤ 0x7F) := by
  unfold stringOfRune MaxRune
  split_ifs with h1 h2 h3 h4
  · simp only [List.all_cons, List.all_nil, Bool.and_true, byte_val, decide_eq_decide]
    omega
  · simp only [List.all_cons, List.all_nil, Bool.and_true, byte_val, decide_eq_false h1,
      Bool.and_eq_false_imp, decide_eq_true_eq, decide_eq_false_iff_not]
    omega
  · simp only [decide_eq_false h1]
    decide
  · simp only [List.all_cons, List.all_nil, Bool.and_true, byte_val, decide_eq_false h1,
      Bool.and_eq_false_imp, decide_eq_true_eq, decide_eq_false_iff_not]
    omega
  · simp only [List.all_cons, List.all_nil, Bool.and_true, byte_val, decide_eq_false h1,
      Bool.and_eq_false_imp, decide_eq_true_eq, decide_eq_false_iff_not]
    omega

theorem encodeRunes_all_ascii (cs : List Nat) :
    (encodeRunes cs).all (fun b => decide (b.val < 0x80))
      = cs.all (fun c => decide (c ≤ 0x7F)) := by
  induction cs with
  | nil => rfl
  | cons c cs ih =>
    unfold encodeRunes at ih ⊢
    rw [List.flatMap_cons, List.all_append, stringOfRune_all_ascii, ih, List.all_cons]

theorem encodeRunes_ascii (cs : List Nat) (h : ∀ c ∈ cs, c ≤ 0x7F) :
    encodeRunes cs = cs.map byte := by
  induction cs with
  | nil => rfl
  | cons c cs ih =>
    have hc := h c (List.mem_cons_self _ _)
    have ih' := ih (fun x hx => h x (List.mem_cons_of_mem _ hx))
    unfold encodeRunes at ih' ⊢
    rw [List.flatMap_cons, ih', List.map_cons]
    unfold stringOfRune
    rw [if_pos hc]
    rfl

theorem ToUpper_ascii_no_lower (caseUpper : Nat → Int) (u : GoString)
    (ha : u.all (fun c => decide (c.val < 0x80)) = true)
    (hl : u.any isLowerByte = false) : ToUpper caseUpper u = u := by
  unfold ToUpper
  rw [if_pos ha, hl]
  rfl

theorem upperBytes_props (s : GoString)
    (ha : s.all (fun c => decide (c.val < 0x80)) = true) :
    (s.map (fun c => if isLowerByte c then byte (c.val - 32) else c)).all
        (fun c => decide (c.val < 0x80)) = true ∧
      (s.map (fun c => if isLowerByte c then byte (c.val - 32) else c)).any isLowerByte
        = false := by
  induction s with
  | nil => exact ⟨rfl, rfl⟩
  | cons b rest ih =>
    rw [List.all_cons, Bool.and_eq_true] at ha
    obtain ⟨ih1, ih2⟩ := ih ha.2
    have hb : b.val < 0x80 := of_decide_eq_true ha.1
    rw [List.map_cons, List.all_cons, List.any_cons, ih1, ih2]
    by_cases hlow : isLowerByte b = true
    · have hr : 0x61 ≤ b.val ∧ b.val ≤ 0x7A := of_decide_eq_true hlow
      rw [if_pos hlow]
      unfold isLowerByte
      simp only [byte_val, Bool.and_true, Bool.or_false, decide_eq_true_eq,
        decide_eq_false_iff_not]
      omega
    · rw [if_neg hlow]
      simp only [Bool.not_eq_true] at hlow
      rw [hlow, ha.1]
      exact ⟨rfl, rfl⟩

theorem ToUpper_idempotent (caseUpper : Nat → Int)
    (hrange : ∀ c, 0x80 ≤ c → ValidRune c →
      0 ≤ caseUpper c ∧ ValidRune (caseUpper c).toNat)
    (hidem : ∀ c, 0x80 ≤ c → ValidRune c →
      unicodeToUpper caseUpper (caseUpper c).toNat = caseUpper c)
    (s : GoString) :
    ToUpper caseUpper (ToUpper caseUpper s) = ToUpper caseUpper s := by
  have hup := unicodeToUpper_props caseUpper hrange hidem
  by_cases ha : s.all (fun c => decide (c.val < 0x80)) = true
  · by_cases hl : s.any isLowerByte = true
    · have e : ToUpper caseUpper s
          = s.map (fun c => if isLowerByte c then byte (c.val - 32) else c) := by
        unfold ToUpper; rw [if_pos ha, if_pos hl]
      rw [e]
      exact ToUpper_ascii_no_lower caseUpper _ (upperBytes_props s ha).1
        (upperBytes_props s ha).2
    · simp only [Bool.not_eq_true] at hl
      rw [ToUpper_ascii_no_lower caseUpper s ha hl, ToUpper_ascii_no_lower caseUpper s ha hl]
  · have hv := rangeRunes_valid s
    have e : ToUpper caseUpper s
        = encodeRunes ((rangeRunes s).map (fun c => (unicodeToUpper caseUpper c).toNat)) := by
      unfold ToUpper Map
      rw [if_neg ha]
      exact Map_eq_encodeRunes _ _ (fun c hc => (hup c (hv c hc)).1)
    have hvalid : ∀ c ∈ (rangeRunes s).map (fun c => (unicodeToUpper caseUpper c).toNat),
        ValidRune c := by
      intro c hc
      obtain ⟨d, hd, rfl⟩ := List.mem_map.mp hc
      exact (hup d (hv d hd)).2.1
    have hfix : ∀ c ∈ (rangeRunes s).map (fun c => (unicodeToUpper caseUpper c).toNat),
        unicodeToUpper caseUpper c = (c : Int) := by
      intro c hc
      obtain ⟨d, hd, rfl⟩ := List.mem_map.mp hc
      rw [(hup d (hv d hd)).2.2, Int.toNat_of_nonneg (hup d (hv d hd)).1]
    rw [e]
    generalize (rangeRunes s).map (fun c => (unicodeToUpper caseUpper c).toNat) = cs
      at hvalid hfix
    by_cases hau : (encodeRunes cs).all (fun c => decide (c.val < 0x80)) = true
    · refine ToUpper_ascii_no_lower caseUpper _ hau ?_
      have hall := hau
      rw [encodeRunes_all_ascii, List.all_eq_true] at hall
      have h7 : ∀ c ∈ cs, c ≤ 0x7F := fun c hc => of_decide_eq_true (hall c hc)
      rw [encodeRunes_ascii cs h7]
      rw [List.any_eq_false]
      intro b hb
      obtain ⟨c, hc, rfl⟩ := List.mem_map.mp hb
      have hc7 := h7 c hc
      have hf := hfix c hc
      unfold unicodeToUpper at hf
      rw [if_pos hc7] at hf
      unfold isLowerByte
      simp only [byte_val, decide_eq_true_eq]
      intro hlow
      rw [if_pos (by omega)] at hf
      omega
    · unfold ToUpper Map
      rw [if_neg hau, rangeRunes_encodeRunes cs hvalid,
        Map_eq_encodeRunes _ _ (fun c hc => by rw [hfix c hc]; exact Int.ofNat_nonneg _)]
      congr 1
      calc cs.map (fun c => (unicodeToUpper caseUpper c).toNat)
          = cs.map id := List.map_congr_left (fun c hc => by rw [hfix c hc]; rfl)
        _ = cs := List.map_id cs

theorem ToUpper_ne_nil (caseUpper : Nat → Int)
    (hrange : ∀ c, 0x80 ≤ c → ValidRune c →
      0 ≤ caseUpper c ∧ ValidRune (caseUpper c).toNat)
    (s : GoString) (hne : s ≠ []) : ToUpper caseUpper s ≠ [] := by
  unfold ToUpper
  split_ifs with ha hl
  · intro h
    exact hne (List.map_eq_nil_iff.mp h)
  · exact hne
  · rcases s with _ | ⟨b, rest⟩
    · exact absurd rfl hne
    · unfold Map
      rw [rangeRunes_cons, List.flatMap_cons]
      intro h
      have h1 := (List.append_eq_nil.mp h).1
      have hv : ValidRune (decodeRune (b :: rest)).1 :=
        rangeRunes_valid (b :: rest) _ (by rw [rangeRunes_cons]; exact List.mem_cons_self _ _)
      have hnn : 0 ≤ unicodeToUpper caseUpper (decodeRune (b :: rest)).1 := by
        unfold unicodeToUpper
        split_ifs
        · exact Int.ofNat_nonneg _
        · exact Int.ofNat_nonneg _
        · exact (hrange _ (by omega) hv).1
      rw [if_neg (by omega)] at h1
      exact stringOfRune_ne_nil _ h1

/-! ## Struct tags -/

theorem scanQuoted_length_aux (n : Nat) :
    ∀ rest : List Char, rest.length ≤ n → ∀ acc text tag2,
      scanQuoted acc rest = some (text, tag2) → tag2.length < rest.length := by
  induction n with
  | zero =>
    intro rest hr acc text tag2 h
    have : rest = [] := List.length_eq_zero.mp (Nat.le_zero.mp hr)
    subst this
    simp [scanQuoted] at h
  | succ n ih =>
    intro rest hr acc text tag2 h
    rcases rest with _ | ⟨c, rest⟩
    · simp [scanQuoted] at h
    · unfold scanQuoted at h
      simp only [List.length_cons] at hr ⊢
      split_ifs at h with h1 h2
      · simp only [Option.some.injEq, Prod.mk.injEq] at h
        rw [← h.2]
        omega
      · rcases rest with _ | ⟨d, rest2⟩
        · simp at h
        · simp only [List.length_cons] at hr ⊢
          have := ih rest2 (by omega) _ _ _ h
          omega
      · have := ih rest (by omega) _ _ _ h
        omega

theorem scanQuoted_length (rest acc text tag2 : List Char)
    (h : scanQuoted acc rest = some (text, tag2)) : tag2.length < rest.length :=
  scanQuoted_length_aux rest.length rest (le_refl _) acc text tag2 h

theorem dropWhile_length_le (p : Char → Bool) (l : List Char) :
    (l.dropWhile p).length ≤ l.length := by
  induction l with
  | nil => simp
  | cons c l ih =>
    rw [List.dropWhile_cons]
    split_ifs
    · simp only [List.length_cons]; omega
    · exact le_refl _

/-- The fuel of `StructTag.Get` is enough: with more units of fuel than the
tag has characters the loop of `Lookup` ends by itself. -/
theorem lookupLoop_fuel (key : List Char) (fuel : Nat) :
    ∀ tag : List Char, tag.length < fuel → lookupLoop key fuel tag ≠ none := by
  induction fuel with
  | zero => intro tag h; omega
  | succ fuel ih =>
    intro tag h
    rw [lookupLoop]
    have h1 := dropWhile_length_le (fun c => c = ' ') tag
    split
    · simp
    · rename_i c cs hcs
      rw [hcs] at h1
      have h2 := dropWhile_length_le tagKeyChar (c :: cs)
      split
      · simp
      · rename_i name rest hdrop hname
        rw [hdrop] at h2
        simp only [List.length_cons] at h1 h2
        split
        · simp
        · rename_i text tag2 hscan
          have h3 := scanQuoted_length _ _ _ _ hscan
          split_ifs
          · simp
          · exact ih tag2 (by omega)
      · simp

/-! ## The case table -/

theorem caseTo_cases (T : List CaseRange) (r : Nat) :
    caseTo T r = (r : Int) ∨
      ∃ cr ∈ T, cr.Lo ≤ r ∧ r ≤ cr.Hi ∧
        caseTo T r = if (MaxRune : Int) < cr.Delta then
            ((cr.Lo + (r - cr.Lo) / 2 * 2 : Nat) : Int)
          else (r : Int) + cr.Delta := by
  induction T with
  | nil => exact Or.inl rfl
  | cons cr rest ih =>
    by_cases h : cr.Lo ≤ r ∧ r ≤ cr.Hi
    · right
      refine ⟨cr, List.mem_cons_self _ _, h.1, h.2, ?_⟩
      rw [caseTo, if_pos h]
    · rw [caseTo, if_neg h]
      rcases ih with ih | ⟨cr2, hmem, h1, h2, h3⟩
      · exact Or.inl ih
      · exact Or.inr ⟨cr2, List.mem_cons_of_mem _ hmem, h1, h2, h3⟩

theorem fixedOn_sound (T : List CaseRange) (a b : Nat) (h : fixedOn T a b = true)
    (x : Nat) (ha : a ≤ x) (hb : x ≤ b) : caseTo T x = (x : Int) := by
  induction T with
  | nil => rfl
  | cons cr rest ih =>
    unfold fixedOn at h ih
    rw [List.all_cons, Bool.and_eq_true] at h
    have h1 := of_decide_eq_true h.1
    rw [caseTo]
    by_cases hin : cr.Lo ≤ x ∧ x ≤ cr.Hi
    · rw [if_pos hin]
      rcases h1 with h1 | h1 | ⟨hd, hab, hlo, hhi, hpar⟩
      · omega
      · omega
      · rw [if_pos hd]
        have : cr.Lo + (x - cr.Lo) / 2 * 2 = x := by omega
        rw [this]
    · rw [if_neg hin]
      exact ih h.2

theorem fixedAlt_sound (T : List CaseRange) (lo hi : Nat) (h : fixedAlt T lo hi = true)
    (x : Nat) (hlo : lo ≤ x) (hhi : x ≤ hi) (hpar : (x - lo) % 2 = 0) :
    caseTo T x = (x : Int) := by
  induction T with
  | nil => rfl
  | cons cr rest ih =>
    unfold fixedAlt at h ih
    rw [List.all_cons, Bool.and_eq_true] at h
    have h1 := of_decide_eq_true h.1
    rw [caseTo]
    by_cases hin : cr.Lo ≤ x ∧ x ≤ cr.Hi
    · rw [if_pos hin]
      rcases h1 with h1 | h1 | ⟨e1, e2, hd⟩
      · omega
      · omega
      · rw [if_pos hd]
        have : cr.Lo + (x - cr.Lo) / 2 * 2 = x := by omega
        rw [this]
    · rw [if_neg hin]
      exact ih h.2

theorem caseTo_ok (T : List CaseRange) (hT : tableOK T = true) (c : Nat)
    (h80 : 0x80 ≤ c) (hc : ValidRune c) :
    0 ≤ caseTo T c ∧ ValidRune (caseTo T c).toNat ∧
      unicodeToUpper (caseTo T) (caseTo T c).toNat = caseTo T c := by
  rcases caseTo_cases T c with h | ⟨cr, hmem, hlo, hhi, h⟩
  · rw [h, Int.toNat_ofNat]
    refine ⟨Int.ofNat_nonneg _, hc, ?_⟩
    unfold unicodeToUpper
    rw [if_neg (by omega), h]
  · have hcr : entryOK T cr = true := by
      unfold tableOK at hT
      exact List.all_eq_true.mp hT cr hmem
    unfold entryOK at hcr
    by_cases hd : (MaxRune : Int) < cr.Delta
    · rw [if_pos hd] at hcr h
      simp only [Bool.and_eq_true, decide_eq_true_eq, validInterval] at hcr
      obtain ⟨⟨h1, h2⟩, h3⟩ := hcr
      rw [h, Int.toNat_ofNat]
      refine ⟨Int.ofNat_nonneg _, ?_, ?_⟩
      · unfold ValidRune; omega
      · unfold unicodeToUpper
        rw [if_neg (by omega)]
        exact fixedAlt_sound T cr.Lo cr.Hi h3 _ (by omega) (by omega) (by omega)
    · rw [if_neg hd] at hcr h
      simp only [Bool.and_eq_true, decide_eq_true_eq, validInterval] at hcr
      obtain ⟨⟨⟨h1, h2⟩, h3⟩, h4⟩ := hcr
      obtain ⟨u, hu⟩ : ∃ u : Nat, (c : Int) + cr.Delta = (u : Int) :=
        ⟨((c : Int) + cr.Delta).toNat, (Int.toNat_of_nonneg (by omega)).symm⟩
      have ha : ((cr.Lo : Int) + cr.Delta).toNat ≤ u := by omega
      have hb : u ≤ ((cr.Hi : Int) + cr.Delta).toNat := by omega
      rw [h, hu, Int.toNat_ofNat]
      refine ⟨Int.ofNat_nonneg _, ?_, ?_⟩
      · unfold ValidRune; omega
      · unfold unicodeToUpper
        by_cases h7 : u ≤ 0x7F
        · rw [if_pos h7, if_neg (by omega)]
        · rw [if_neg h7]
          exact fixedOn_sound T _ _ h4 u ha hb

theorem caseTo_of_none (A : List CaseRange) (r : Nat)
    (h : ∀ a ∈ A, ¬ (a.Lo ≤ r ∧ r ≤ a.Hi)) : caseTo A r = (r : Int) := by
  induction A with
  | nil => rfl
  | cons a A ih =>
    rw [caseTo, if_neg (h a (List.mem_cons_self _ _))]
    exact ih (fun x hx => h x (List.mem_cons_of_mem _ hx))

theorem caseTo_append_of_none_left (A B : List CaseRange) (r : Nat)
    (h : ∀ a ∈ A, ¬ (a.Lo ≤ r ∧ r ≤ a.Hi)) : caseTo (A ++ B) r = caseTo B r := by
  induction A with
  | nil => rfl
  | cons a A ih =>
    rw [List.cons_append, caseTo, if_neg (h a (List.mem_cons_self _ _))]
    exact ih (fun x hx => h x (List.mem_cons_of_mem _ hx))

theorem caseTo_append_of_none_right (A B : List CaseRange) (r : Nat)
    (h : ∀ b ∈ B, ¬ (b.Lo ≤ r ∧ r ≤ b.Hi)) : caseTo (A ++ B) r = caseTo A r := by
  induction A with
  | nil => exact caseTo_of_none B r h
  | cons a A ih =>
    rw [List.cons_append, caseTo, caseTo, ih]

theorem getElem?_middle (A S1 : List CaseRange) (x : CaseRange) (R : List CaseRange) :
    (A ++ S1 ++ x :: R)[A.length + S1.length]? = some x := by
  rw [← List.length_append]
  exact List.getElem?_append_right (le_refl _) |>.trans (by simp)

theorem unicodeToLoop_eq_caseTo (T : List CaseRange)
    (hs : T.Pairwise (fun a b => a.Hi < b.Lo)) (hle : ∀ a ∈ T, a.Lo ≤ a.Hi) (r : Nat) :
    ∀ (fuel : Nat) (A seg B : List CaseRange), T = A ++ seg ++ B → seg.length ≤ fuel →
      unicodeToLoop T r fuel A.length (A.length + seg.length) = caseTo seg r := by
  intro fuel
  induction fuel with
  | zero =>
    intro A seg B _ hlen
    have : seg = [] := List.length_eq_zero.mp (Nat.le_zero.mp hlen)
    subst this
    rfl
  | succ fuel ih =>
    intro A seg B hT hlen
    rw [unicodeToLoop]
    by_cases hseg : seg = []
    · subst hseg
      rw [if_neg (by simp)]
      rfl
    · have hpos : 0 < seg.length := List.length_pos.mpr hseg
      rw [if_pos (by omega)]
      have hk : seg.length / 2 < seg.length := by omega
      have hm : (A.length + (A.length + seg.length)) / 2 = A.length + seg.length / 2 := by
        omega
      rw [hm]
      obtain ⟨S1, cr, S2, hsplit, hS1⟩ : ∃ S1 cr S2, seg = S1 ++ cr :: S2 ∧
          S1.length = seg.length / 2 := by
        refine ⟨seg.take (seg.length / 2), seg.get ⟨seg.length / 2, hk⟩,
          seg.drop (seg.length / 2 + 1), ?_, ?_⟩
        · have e := List.take_append_drop (seg.length / 2) seg
          rw [List.drop_eq_getElem_cons hk] at e
          exact e.symm
        · rw [List.length_take]; omega
      have hget : T[A.length + seg.length / 2]? = some cr := by
        rw [← hS1, hT, hsplit]
        have e := getElem?_middle A S1 cr (S2 ++ B)
        simpa using e
      rw [hget]
      simp only
      have hpw : (A ++ (S1 ++ cr :: S2) ++ B).Pairwise (fun a b => a.Hi < b.Lo) := by
        rw [← hsplit, ← hT]; exact hs
      have hcr : cr.Lo ≤ cr.Hi := hle cr (by rw [hT, hsplit]; simp)
      have hS1lt : ∀ a ∈ S1, a.Hi < cr.Lo := by
        intro a ha
        have h1 := (List.pairwise_append.mp ((List.pairwise_append.mp hpw).1)).2.1
        exact (List.pairwise_append.mp h1).2.2 a ha cr (List.mem_cons_self _ _)
      have hS2gt : ∀ b ∈ S2, cr.Hi < b.Lo := by
        intro b hb
        have h1 := (List.pairwise_append.mp ((List.pairwise_append.mp hpw).1)).2.1
        have h2 := (List.pairwise_append.mp h1).2.1
        exact (List.pairwise_cons.mp h2).1 b hb
      have hS2le : ∀ b ∈ S2, b.Lo ≤ b.Hi := fun b hb => hle b (by rw [hT, hsplit]; simp [hb])
      have hS1le : ∀ a ∈ S1, a.Lo ≤ a.Hi := fun a ha => hle a (by rw [hT, hsplit]; simp [ha])
      by_cases hin : cr.Lo ≤ r ∧ r ≤ cr.Hi
      · rw [if_pos hin, hsplit,
          caseTo_append_of_none_left S1 _ r (fun a ha h => by have := hS1lt a ha; omega),
          caseTo, if_pos hin]
      · rw [if_neg hin]
        by_cases hlt : r < cr.Lo
        · rw [if_pos hlt]
          have e := ih A S1 (cr :: S2 ++ B) (by rw [hT, hsplit]; simp) (by omega)
          rw [hS1] at e
          rw [e, hsplit]
          refine (caseTo_append_of_none_right S1 _ r ?_).symm
          intro b hb h
          rcases List.mem_cons.mp hb with rfl | hb
          · omega
          · have := hS2gt b hb; omega
        · rw [if_neg hlt]
          have e := ih (A ++ S1 ++ [cr]) S2 B (by rw [hT, hsplit]; simp) (by
            have : seg.length = S1.length + (S2.length + 1) := by
              rw [hsplit, List.length_append, List.length_cons]
            omega)
          have hl1 : (A ++ S1 ++ [cr]).length = A.length + seg.length / 2 + 1 := by
            simp only [List.length_append, List.length_singleton]
            omega
          have hl2 : (A ++ S1 ++ [cr]).length + S2.length = A.length + seg.length := by
            have : seg.length = S1.length + (S2.length + 1) := by
              rw [hsplit, List.length_append, List.length_cons]
            rw [hl1]; omega
          rw [hl2, hl1] at e
          rw [e, hsplit]
          refine (caseTo_append_of_none_left S1 _ r ?_).trans ?_ |>.symm
          · intro a ha h
            have := hS1lt a ha; omega
          · rw [caseTo, if_neg hin]

theorem unicodeTo_eq_caseTo (T : List CaseRange)
    (hs : T.Pairwise (fun a b => a.Hi < b.Lo)) (hle : ∀ a ∈ T, a.Lo ≤ a.Hi) (r : Nat) :
    unicodeTo T r = caseTo T r := by
  have e := unicodeToLoop_eq_caseTo T hs hle r T.length [] T [] (by simp) (le_refl _)
  simpa [unicodeTo] using e

set_option maxRecDepth 100000 in
theorem CaseRanges_sorted :
    CaseRanges.Pairwise (fun a b => a.Hi < b.Lo) ∧ ∀ a ∈ CaseRanges, a.Lo ≤ a.Hi := by
  decide!

theorem toUpperCase_eq (r : Nat) : toUpperCase r = caseTo CaseRanges r :=
  unicodeTo_eq_caseTo CaseRanges CaseRanges_sorted.1 CaseRanges_sorted.2 r

set_option maxRecDepth 100000 in
theorem CaseRanges_ok : tableOK CaseRanges = true := by decide!

theorem Uppercase_sample :
    Uppercase toUpperCase [0x68, 0xC3, 0xA9, 0xC4, 0xB1, 0xFF]
      = ([0x48, 0xC3, 0x89, 0x49, 0xEF, 0xBF, 0xBD], none) := by decide!

/-! ## The contract of the text operations -/

/-- C1, as stated, fails: the string of the single two-byte character `é`
(`C3 A9`) is valid UTF-8 and has one code point, and `Count` returns 2. -/
theorem Count_codePoints_counterexample :
    ValidString [0xC3, 0xA9] ∧ codePointCount [0xC3, 0xA9] = 1 ∧ Count [0xC3, 0xA9] = 2 ∧
      Count [0xC3, 0xA9] ≠ codePointCount [0xC3, 0xA9] := by
  decide

/-- C1, amended: for every string `s`, `Count s` is the number of bytes of
`s`; it is never less than the number of code points of `s` and equals it
when every byte of `s` is ASCII; `Count "" = 0`, and a string holding one
multi-byte character has one code point and a `Count` of its 2 to 4 bytes. -/
theorem Count_bytes (s : GoString) :
    Count s = s.length ∧ codePointCount s ≤ Count s ∧
      ((∀ b ∈ s, b.val < 0x80) → Count s = codePointCount s) ∧
      Count [] = 0 ∧
      (∀ c, ValidRune c → 0x80 ≤ c →
        codePointCount (stringOfRune c) = 1 ∧
          2 ≤ Count (stringOfRune c) ∧ Count (stringOfRune c) ≤ 4) := by
  refine ⟨rfl, rangeRunes_length_le s, ?_, rfl, ?_⟩
  · intro h
    unfold Count codePointCount
    rw [rangeRunes_ascii s h, List.length_map]
  · intro c hc h80
    refine ⟨?_, ?_, (stringOfRune_length c).2⟩
    · have e := rangeRunes_stringOfRune_append c hc []
      rw [List.append_nil] at e
      unfold codePointCount
      rw [e]
      rfl
    · unfold Count stringOfRune
      split_ifs <;> first | (exfalso; omega) | simp

/-- C2, as stated, fails: the one-byte string `FF` is not empty, `Reverse`
turns it into the encoding of `U+FFFD`, and reversing that does not give
`FF` back. -/
theorem Reverse_involution_counterexample :
    ([0xFF] : GoString) ≠ [] ∧ Reverse [0xFF] = ([0xEF, 0xBF, 0xBD], none) ∧
      Reverse [0xEF, 0xBF, 0xBD] = ([0xEF, 0xBF, 0xBD], none) ∧
      ([0xEF, 0xBF, 0xBD] : GoString) ≠ [0xFF] := by
  decide

/-- C2, amended: for every non-empty string `s` that is valid UTF-8,
`Reverse s` succeeds with a string `r`, `Reverse r` succeeds too, and its
result is `s`. -/
theorem Reverse_involution (s : GoString) (hne : s ≠ []) (hv : ValidString s) :
    ∃ r, Reverse s = (r, none) ∧ Reverse r = (s, none) := by
  refine ⟨reverseString s, ?_, ?_⟩
  · unfold Reverse
    rw [if_neg hne]
  · unfold Reverse
    rw [if_neg (reverseString_ne_nil s hne), reverseString_reverseString s hv]

theorem Reverse_involution_witness :
    ∃ r, Reverse [0x68, 0xC3, 0xA9, 0xF0, 0x9F, 0x98, 0x80] = (r, none) ∧
      Reverse r = ([0x68, 0xC3, 0xA9, 0xF0, 0x9F, 0x98, 0x80], none) :=
  Reverse_involution [0x68, 0xC3, 0xA9, 0xF0, 0x9F, 0x98, 0x80] (by decide) (by decide)

/-- C3: for every non-empty string `s`, `Reverse s` returns no error and a
string `r` whose code points are those of `s` in reverse order. `r` is made
of the encodings of the runes read from `s`, last iteration first; every
iteration that read a well-formed sequence, so every multi-byte character of
`s`, comes back with the very bytes it had in `s`, and the only other
iterations read one ill-formed byte as `U+FFFD`. When `s` is the encoding of
the characters `cs`, `r` is the encoding of `cs` reversed. -/
theorem Reverse_codePoints (s : GoString) (hne : s ≠ []) :
    ∃ r, Reverse s = (r, none) ∧
      rangeRunes r = (rangeRunes s).reverse ∧
      s = (rangeSteps s).flatMap Prod.snd ∧
      r = (rangeSteps s).reverse.flatMap (fun p => stringOfRune p.1) ∧
      (∀ p ∈ rangeSteps s, stringOfRune p.1 = p.2 ∨ (p.1 = RuneError ∧ p.2.length = 1)) ∧
      (∀ cs : List Nat, (∀ c ∈ cs, ValidRune c) → s = encodeRunes cs →
        r = encodeRunes cs.reverse) := by
  have hsteps := rangeSteps_spec_aux s.length s (le_refl _)
  refine ⟨reverseString s, ?_, rangeRunes_reverseString s, hsteps.1.symm, ?_, hsteps.2, ?_⟩
  · unfold Reverse
    rw [if_neg hne]
  · rw [reverseString_eq, ← rangeSteps_map_fst, ← List.map_reverse, flatMap_map_fst]
  · intro cs hcs hs
    rw [reverseString_eq, hs, rangeRunes_encodeRunes cs hcs]

theorem Reverse_codePoints_witness :
    ∃ r, Reverse [0x68, 0xC3, 0xA9, 0xFF] = (r, none) ∧
      rangeRunes r = (rangeRunes [0x68, 0xC3, 0xA9, 0xFF]).reverse ∧
      [0x68, 0xC3, 0xA9, 0xFF] = (rangeSteps [0x68, 0xC3, 0xA9, 0xFF]).flatMap Prod.snd ∧
      r = (rangeSteps [0x68, 0xC3, 0xA9, 0xFF]).reverse.flatMap (fun p => stringOfRune p.1) ∧
      (∀ p ∈ rangeSteps [0x68, 0xC3, 0xA9, 0xFF],
        stringOfRune p.1 = p.2 ∨ (p.1 = RuneError ∧ p.2.length = 1)) ∧
      (∀ cs : List Nat, (∀ c ∈ cs, ValidRune c) → [0x68, 0xC3, 0xA9, 0xFF] = encodeRunes cs →
        r = encodeRunes cs.reverse) :=
  Reverse_codePoints [0x68, 0xC3, 0xA9, 0xFF] (by decide)

/-- C4: for every string `s`, `isPelindrome s` is `"True"` exactly when `s`
equals its code-point-reversed form and `"False"` otherwise; it always
returns one of the two, and `isPelindrome ""` is `"True"`. -/
theorem isPelindrome_spec (s : GoString) :
    (isPelindrome s = lit "True" ↔ s = codePointReversed s) ∧
      (isPelindrome s = lit "False" ↔ s ≠ codePointReversed s) ∧
      isPelindrome [] = lit "True" := by
  have hTF : lit "True" ≠ lit "False" := by decide
  unfold isPelindrome codePointReversed
  rw [reverseString_eq]
  refine ⟨?_, ?_, by decide⟩
  · by_cases h : s = encodeRunes (rangeRunes s).reverse
    · rw [if_pos h]; exact ⟨fun _ => h, fun _ => rfl⟩
    · rw [if_neg h]; exact ⟨fun e => absurd e.symm hTF, fun e => absurd e h⟩
  · by_cases h : s = encodeRunes (rangeRunes s).reverse
    · rw [if_pos h]; exact ⟨fun e => absurd e hTF, fun e => absurd h e⟩
    · rw [if_neg h]; exact ⟨fun _ => h, fun _ => rfl⟩

/-- C5: `Uppercase s` and `Reverse s` each return an error exactly when `s`
is empty; the error is then `ErrEmpty`, whose message is `"empty string"`,
and the returned value is the empty string; for a non-empty `s` the error is
`nil`. -/
theorem empty_input_error (caseUpper : Nat → Int) (s : GoString) :
    ((Uppercase caseUpper s).2 ≠ none ↔ s = []) ∧
      ((Reverse s).2 ≠ none ↔ s = []) ∧
      (s = [] → Uppercase caseUpper s = ([], some ErrEmpty) ∧ Reverse s = ([], some ErrEmpty)) ∧
      ErrEmpty.Error = lit "empty string" ∧
      (s ≠ [] → (Uppercase caseUpper s).2 = none ∧ (Reverse s).2 = none) := by
  unfold Uppercase Reverse
  by_cases h : s = []
  · simp [h, ErrEmpty, GoError.Error]
  · simp [h, ErrEmpty, GoError.Error]


/-! ## The endpoints -/

/-- C6: for every request the uppercase and reverse endpoints return a
response and no error; with an empty input the response has an empty `V` and
a non-empty `Err`, with a non-empty input it has an empty `Err` and `V` is
the value that `Uppercase` (`Reverse`) returns. The count and ispelindrome
endpoints always return a response and no error. -/
theorem endpoints_in_band (caseUpper : Nat → Int) (s : GoString) :
    (makeUppercaseEndpoint (stringService caseUpper) ⟨s⟩).2 = none ∧
      (makeReverseEndpoint (stringService caseUpper) ⟨s⟩).2 = none ∧
      (s = [] →
        (makeUppercaseEndpoint (stringService caseUpper) ⟨s⟩).1.V = [] ∧
        (makeUppercaseEndpoint (stringService caseUpper) ⟨s⟩).1.Err ≠ [] ∧
        (makeReverseEndpoint (stringService caseUpper) ⟨s⟩).1.V = [] ∧
        (makeReverseEndpoint (stringService caseUpper) ⟨s⟩).1.Err ≠ []) ∧
      (s ≠ [] →
        (makeUppercaseEndpoint (stringService caseUpper) ⟨s⟩).1
          = ⟨(Uppercase caseUpper s).1, []⟩ ∧
        (makeReverseEndpoint (stringService caseUpper) ⟨s⟩).1 = ⟨(Reverse s).1, []⟩) ∧
      makeCountEndpoint (stringService caseUpper) ⟨s⟩ = (⟨Count s⟩, none) ∧
      makeIsPelindromeEndpoint (stringService caseUpper) ⟨s⟩ = (⟨isPelindrome s⟩, none) := by
  have hmsg : lit "empty string" ≠ [] := by decide
  by_cases h : s = []
  · subst h
    refine ⟨rfl, rfl, fun _ => ⟨rfl, hmsg, rfl, hmsg⟩, fun hn => absurd rfl hn, rfl, rfl⟩
  · have hU : Uppercase caseUpper s = (ToUpper caseUpper s, none) := by
      unfold Uppercase; rw [if_neg h]
    have hR : Reverse s = (reverseString s, none) := by
      unfold Reverse; rw [if_neg h]
    have eU : makeUppercaseEndpoint (stringService caseUpper) ⟨s⟩
        = (⟨ToUpper caseUpper s, []⟩, none) := by
      simp only [makeUppercaseEndpoint, stringService, hU]
    have eR : makeReverseEndpoint (stringService caseUpper) ⟨s⟩
        = (⟨reverseString s, []⟩, none) := by
      simp only [makeReverseEndpoint, stringService, hR]
    rw [eU, eR, hU, hR]
    exact ⟨rfl, rfl, fun he => absurd he h, fun _ => ⟨rfl, rfl⟩, rfl, rfl⟩

/-- C7: the documented results on the documented inputs: `Uppercase "Hello"`
is `"HELLO"` with no error, `Reverse "Hello"` is `"olleH"` with no error,
`Count "Hello"` is 5, `isPelindrome "racecar"` is `"True"` and
`isPelindrome "hello"` is `"False"`. -/
theorem documented_examples (caseUpper : Nat → Int) :
    Uppercase caseUpper (lit "Hello") = (lit "HELLO", none) ∧
      Reverse (lit "Hello") = (lit "olleH", none) ∧
      Count (lit "Hello") = 5 ∧
      isPelindrome (lit "racecar") = lit "True" ∧
      isPelindrome (lit "hello") = lit "False" :=
  ⟨rfl, by decide, by decide, by decide, by decide⟩

/-- C8 at `{"s": "racecar"}`: the object written for the `/ispelindrome`
response has the single key `Result`, the name of the field, and not
`result`: its tag `json: "result"` has a blank after the colon, `Lookup`
finds no `json` key in it, and `encoding/json` falls back on the field name.
The tags of the other responses are well formed and give `v` and `err`. -/
theorem ispelindrome_key_is_field_name :
    lookupLoop "json".toList 16 "json: \"result\"".toList = some none ∧
      encodeResponse
          (.isPelindrome (makeIsPelindromeEndpoint (stringService (fun c => c))
            ⟨lit "racecar"⟩).1)
        = [("Result", .string (lit "True"))] ∧
      (∀ r : isPelindromeResponse,
        (encodeResponse (.isPelindrome r)).map Prod.fst = ["Result"]) ∧
      (∀ r : countResponse, (encodeResponse (.count r)).map Prod.fst = ["v"]) ∧
      (∀ r : uppercaseResponse, (encodeResponse (.uppercase r)).map Prod.fst
        = if r.Err = [] then ["v"] else ["v", "err"]) ∧
      (∀ r : reverseResponse, (encodeResponse (.reverse r)).map Prod.fst
        = if r.Err = [] then ["v"] else ["v", "err"]) := by
  refine ⟨by decide, by decide, fun r => rfl, fun r => rfl, fun r => ?_, fun r => ?_⟩
  · rcases r with ⟨v, _ | ⟨e, es⟩⟩ <;> rfl
  · rcases r with ⟨v, _ | ⟨e, es⟩⟩ <;> rfl

/-- C9: for every non-empty valid UTF-8 string `s`, `Reverse s` is `(r, nil)`
for a string `r` with `Count r = Count s` and
`isPelindrome r = isPelindrome s`. -/
theorem Reverse_preserves (s : GoString) (hne : s ≠ []) (hv : ValidString s) :
    ∃ r, Reverse s = (r, none) ∧ Count r = Count s ∧ isPelindrome r = isPelindrome s := by
  refine ⟨reverseString s, ?_, reverseString_length s hv, ?_⟩
  · unfold Reverse
    rw [if_neg hne]
  · unfold isPelindrome
    rw [reverseString_reverseString s hv]
    by_cases h : s = reverseString s
    · rw [if_pos h, if_pos h.symm]
    · rw [if_neg h, if_neg (fun e => h e.symm)]

theorem Reverse_preserves_witness :
    ∃ r, Reverse [0x68, 0xC3, 0xA9, 0x68] = (r, none) ∧
      Count r = Count [0x68, 0xC3, 0xA9, 0x68] ∧
      isPelindrome r = isPelindrome [0x68, 0xC3, 0xA9, 0x68] :=
  Reverse_preserves [0x68, 0xC3, 0xA9, 0x68] (by decide) (by decide)


/-- C10: for every non-empty string `s`, `Uppercase s` is `(u, nil)` with `u`
non-empty, and `Uppercase u` is `(u, nil)` again; the case lookup is that of
the table `CaseRanges`. -/
theorem Uppercase_idempotent (s : GoString) (hne : s ≠ []) :
    ∃ u, Uppercase toUpperCase s = (u, none) ∧ u ≠ [] ∧
      Uppercase toUpperCase u = (u, none) := by
  have hf : toUpperCase = caseTo CaseRanges := funext toUpperCase_eq
  rw [hf]
  have hrange : ∀ c, 0x80 ≤ c → ValidRune c →
      0 ≤ caseTo CaseRanges c ∧ ValidRune (caseTo CaseRanges c).toNat := fun c h80 hc =>
    ⟨(caseTo_ok CaseRanges CaseRanges_ok c h80 hc).1,
      (caseTo_ok CaseRanges CaseRanges_ok c h80 hc).2.1⟩
  have hidem : ∀ c, 0x80 ≤ c → ValidRune c →
      unicodeToUpper (caseTo CaseRanges) (caseTo CaseRanges c).toNat = caseTo CaseRanges c :=
    fun c h80 hc => (caseTo_ok CaseRanges CaseRanges_ok c h80 hc).2.2
  have hu := ToUpper_ne_nil (caseTo CaseRanges) hrange s hne
  refine ⟨ToUpper (caseTo CaseRanges) s, ?_, hu, ?_⟩
  · unfold Uppercase
    rw [if_neg hne]
  · unfold Uppercase
    rw [if_neg hu, ToUpper_idempotent (caseTo CaseRanges) hrange hidem s]

theorem Uppercase_idempotent_witness :
    ∃ u, Uppercase toUpperCase [0x68, 0xC3, 0xA9, 0xC4, 0xB1, 0xFF] = (u, none) ∧ u ≠ [] ∧
      Uppercase toUpperCase u = (u, none) :=
  Uppercase_idempotent [0x68, 0xC3, 0xA9, 0xC4, 0xB1, 0xFF] (by decide)

end StringSvc
